import Mathlib

/-!
Verification of the relationship-inference core of the iac-visualizer
repository (Terraform plan resolver, Kubernetes relationship inferencer,
Helm composition layer) against its natural-language specification.

The Python sources are shallowly embedded:
* YAML/JSON values (`dict` / `list` / scalars) become the mutual inductive
  family `KVal` / `KObj` / `KArr`, so that every function over them is
  structurally recursive and kernel-computable.
* The pydantic models in `graph/models.py` become the structures `Node`,
  `Edge`, `ResourceGraph`.
* Each parser class becomes a pure function threading an explicit state
  (graph plus address cache), mirroring `parse_plan` / `parse_files` /
  `parse_chart`.
All definitions follow the source line by line; deviations forced by the
embedding (e.g. file I/O and YAML decoding happening at the boundary) are
noted where they occur.
-/

mutual

/-- A YAML/JSON-like value, as produced by `yaml.safe_load` / `json.load`
in the Python sources: strings, booleans, integers, null, dicts, lists.
(Floats never occur in any code path the claims touch.) -/
inductive KVal where
  | s : String → KVal
  | b : Bool → KVal
  | i : Int → KVal
  | null : KVal
  | d : KObj → KVal
  | l : KArr → KVal

inductive KObj where
  | nil : KObj
  | cons : String → KVal → KObj → KObj

inductive KArr where
  | nil : KArr
  | cons : KVal → KArr → KArr

end

/-- First binding of a key in an object (Python dict keys are unique, so
first match equals the dict lookup). -/
def KObj.find? : KObj → String → Option KVal
  | .nil, _ => none
  | .cons k v rest, key => if k = key then some v else KObj.find? rest key

/-- Python dict assignment `o[k] = v`: overwrite in place or append. -/
def KObj.insert : KObj → String → KVal → KObj
  | .nil, k, v => .cons k v .nil
  | .cons k' v' rest, k, v =>
      if k' = k then .cons k v rest else .cons k' v' (KObj.insert rest k v)

def KObj.toList : KObj → List (String × KVal)
  | .nil => []
  | .cons k v rest => (k, v) :: KObj.toList rest

def KObj.ofList : List (String × KVal) → KObj
  | [] => .nil
  | (k, v) :: rest => .cons k v (KObj.ofList rest)

def KArr.toList : KArr → List KVal
  | .nil => []
  | .cons v rest => v :: KArr.toList rest

def KArr.ofList : List KVal → KArr
  | [] => .nil
  | v :: rest => .cons v (KArr.ofList rest)

/-- Convenience constructor for dict literals. -/
def kdict (l : List (String × KVal)) : KVal := .d (KObj.ofList l)

/-- Convenience constructor for list literals. -/
def klist (l : List KVal) : KVal := .l (KArr.ofList l)

/-- Python truthiness of a parsed YAML/JSON value (`""`, `{}`, `[]`,
`False`, `0`, `None` are falsy). -/
def KVal.truthy : KVal → Bool
  | .s str => !str.data.isEmpty
  | .b bv => bv
  | .i n => n != 0
  | .null => false
  | .d .nil => false
  | .d _ => true
  | .l .nil => false
  | .l _ => true

/-- Truthiness of `dict.get(key)` (missing key gives `None`, falsy). -/
def pyTruthy : Option KVal → Bool
  | none => false
  | some v => v.truthy

/-- `v.get(key, dflt)` where `v` is a dict. The sources only ever call
`.get` on values that are dicts in every reachable input; a non-dict
receiver would raise in Python and is mapped to the default here. -/
def KVal.getD (v : KVal) (key : String) (dflt : KVal) : KVal :=
  match v with
  | .d o => (o.find? key).getD dflt
  | _ => dflt

/-- `v.get(key)` with the Python default `None`. -/
def KVal.getN (v : KVal) (key : String) : KVal := v.getD key .null

/-- Iterating a value expected to be a list; non-lists yield nothing
(the sources only iterate values that are lists on reachable inputs). -/
def KVal.items : KVal → List KVal
  | .l a => a.toList
  | _ => []

/-- Reading a string-valued field with a default, as in
`metadata.get('name', 'unknown')`. All call sites carry string values in
every input the claims exercise. -/
def KVal.strD (v : KVal) (key : String) (dflt : String) : String :=
  match v.getD key (.s dflt) with
  | .s str => str
  | _ => dflt

-- Structural equality of YAML values: Python `==` on parsed documents,
-- restricted to the cases the sources compare. Dict comparison here is
-- order-sensitive, observable only for dict-valued selector entries that
-- never occur in the embedded call sites.
mutual

def KVal.beq : KVal → KVal → Bool
  | .s a, .s c => a == c
  | .b a, .b c => a == c
  | .i a, .i c => a == c
  | .null, .null => true
  | .d a, .d c => KObj.beq a c
  | .l a, .l c => KArr.beq a c
  | _, _ => Bool.false

def KObj.beq : KObj → KObj → Bool
  | .nil, .nil => true
  | .cons k v r, .cons k' v' r' => k == k' && KVal.beq v v' && KObj.beq r r'
  | _, _ => false

def KArr.beq : KArr → KArr → Bool
  | .nil, .nil => true
  | .cons v r, .cons v' r' => KVal.beq v v' && KArr.beq r r'
  | _, _ => false

end

/-! ## Graph model (`graph/models.py`) -/

/-- `Node` from `graph/models.py`: id, type, name, optional namespace and
group, and an open attribute mapping. -/
structure Node where
  id : String
  type : String
  name : String
  «namespace» : Option String := none
  group : Option String := none
  attributes : KObj := .nil

/-- `Edge` from `graph/models.py`. -/
structure Edge where
  from_id : String
  to_id : String
  reason : String
deriving DecidableEq, Repr

/-- `ResourceGraph` from `graph/models.py`: append-only node and edge
lists plus a `meta` mapping. -/
structure ResourceGraph where
  nodes : List Node := []
  edges : List Edge := []
  meta : KObj := .nil

/-- `ResourceGraph.add_node`: plain append, no validation. -/
def ResourceGraph.add_node (g : ResourceGraph) (n : Node) : ResourceGraph :=
  { g with nodes := g.nodes ++ [n] }

/-- `ResourceGraph.add_edge`: plain append, no validation. -/
def ResourceGraph.add_edge (g : ResourceGraph) (e : Edge) : ResourceGraph :=
  { g with edges := g.edges ++ [e] }

/-- The ids of a graph's nodes, in insertion order. -/
def ResourceGraph.nodeIds (g : ResourceGraph) : List String :=
  g.nodes.map (·.id)

/-- The `(from_id, to_id, reason)` dedup key of an edge. -/
def Edge.triple (e : Edge) : String × String × String :=
  (e.from_id, e.to_id, e.reason)

/-- Both endpoints of an edge name nodes of the graph. -/
def edgeWellFormed (g : ResourceGraph) (e : Edge) : Prop :=
  e.from_id ∈ g.nodeIds ∧ e.to_id ∈ g.nodeIds

/-! ## String utilities

The Python sources use `str.split('.')`, `'.'.join`, `str.lower()`,
`str.startswith` and two `re` patterns. They are embedded here as
structurally recursive functions over `List Char`, so every parse run is
kernel-computable. -/

/-- `str.split('.')` (keeps empty segments, like Python). -/
def splitDotsAux : List Char → List Char → List String
  | [], acc => [String.mk acc.reverse]
  | c :: rest, acc =>
      if c = '.' then String.mk acc.reverse :: splitDotsAux rest []
      else splitDotsAux rest (c :: acc)

def splitDots (s : String) : List String := splitDotsAux s.data []

/-- `'.'.join(parts)`. -/
def joinDots : List String → String
  | [] => ""
  | [p] => p
  | p :: rest => p ++ "." ++ joinDots rest

/-- `str.lower()` (ASCII, which is all that reaches it). -/
def lowerStr (s : String) : String := String.mk (s.data.map Char.toLower)

/-- `str.startswith(pre)`. -/
def startsWithStr (s pre : String) : Bool := pre.data.isPrefixOf s.data

/-- The `[a-zA-Z0-9_]` character class (`\w` over the ASCII inputs). -/
def isWordChar (c : Char) : Bool := c.isAlpha || c.isDigit || c = '_'

/-- The `[a-zA-Z_]` character class opening the bare-reference pattern. -/
def isWordStart (c : Char) : Bool := c.isAlpha || c = '_'

def lbrace : Char := Char.ofNat 123

def rbrace : Char := Char.ofNat 125

/-- `re.findall(r'\$\x7b([^\x7d]+)\x7d', value)`: left-to-right
non-overlapping scan; on `$` followed by an opening brace, the greedy
`[^...]+` runs to the next closing brace (at least one character), and
scanning resumes after it. The accumulator holds the inner characters in
reverse while a candidate match is open. -/
def interpScanAux : List Char → Option (List Char) → List String
  | [], _ => []
  | c :: rest, some acc =>
      if c = rbrace then
        if acc.isEmpty then interpScanAux rest none
        else String.mk acc.reverse :: interpScanAux rest none
      else interpScanAux rest (some (c :: acc))
  | '$' :: c2 :: rest, none =>
      if c2 = lbrace then interpScanAux rest (some [])
      else interpScanAux (c2 :: rest) none
  | _ :: rest, none => interpScanAux rest none

def interpolationMatches (value : String) : List String :=
  interpScanAux value.data none

/-- Maximal run of word characters (the greedy `[a-zA-Z0-9_]*` / `+`). -/
def wordRun : List Char → List Char × List Char
  | [] => ([], [])
  | c :: rest =>
      if isWordChar c then
        let (run, rest') := wordRun rest
        (c :: run, rest')
      else ([], c :: rest)

/-- The greedy `(?:\.[a-zA-Z0-9_]+)*` tail of the bare pattern: consume
`.`-plus-word-run groups while the character after the dot is a word
character. Fuel is the input length; each step consumes at least two
characters, so it never runs out. -/
def bareSegsAux : Nat → List Char → List Char × List Char
  | 0, l => ([], l)
  | fuel + 1, l =>
      match l with
      | c :: rest =>
          if c = '.' then
            match wordRun rest with
            | ([], _) => ([], l)
            | (w, rest2) =>
                let (more, final) := bareSegsAux fuel rest2
                ('.' :: (w ++ more), final)
          else ([], l)
      | [] => ([], [])

/-- One attempt of the bare pattern
`[a-zA-Z_][a-zA-Z0-9_]*\.[a-zA-Z0-9_]+(?:\.[a-zA-Z0-9_]+)*\b` at a
position whose previous character is not a word character and whose first
character is in `[a-zA-Z_]`. Greediness is deterministic here: every
backtracked alternative faces a word character where the pattern demands
`.`, and the final `\b` always holds after a maximal word run. Returns
the matched token and the remaining input. -/
def tryBareMatch (l : List Char) : Option (List Char × List Char) :=
  match wordRun l with
  | (w0, rest0) =>
      match rest0 with
      | c :: rest1 =>
          if c = '.' then
            match wordRun rest1 with
            | ([], _) => none
            | (w1, rest2) =>
                let (more, final) := bareSegsAux rest2.length rest2
                some (w0 ++ '.' :: (w1 ++ more), final)
          else none
      | [] => none

/-- `re.findall` of the bare pattern: try a match wherever a word run
begins with `[a-zA-Z_]` (the leading `\b`), resume after each match.
Fuel bounds the number of steps by the input length. -/
def bareScanAux : Nat → Bool → List Char → List String
  | 0, _, _ => []
  | _ + 1, _, [] => []
  | fuel + 1, prevWord, c :: rest =>
      if !prevWord && isWordStart c then
        match tryBareMatch (c :: rest) with
        | some (tok, rest') => String.mk tok :: bareScanAux fuel true rest'
        | none => bareScanAux fuel (isWordChar c) rest
      else bareScanAux fuel (isWordChar c) rest

def bareMatches (value : String) : List String :=
  bareScanAux (value.data.length + 1) false value.data

/-- `str.isdigit()`: non-empty and all digits. -/
def pyIsDigit (s : String) : Bool := !s.data.isEmpty && s.data.all Char.isDigit

/-- `TerraformParser._clean_reference`. -/
def clean_reference (ref_string : String) : Option String :=
  if ref_string.data.isEmpty || pyIsDigit ref_string then none
  else
    let parts := splitDots ref_string
    if parts.length < 2 || parts.headD "" ∈ ["true", "false", "null"] then none
    else if parts.headD "" = "module" then
      if parts.length ≥ 4 then some (joinDots (parts.take 4)) else none
    else if parts.headD "" = "data" then
      if parts.length ≥ 3 then some (joinDots (parts.take 3)) else none
    else if parts.headD "" ∈ ["var", "local"] then none
    else some (joinDots (parts.take 2))

/-- `TerraformParser._is_likely_reference`. The Python code indexes
`first_part[0]`; the bare pattern guarantees the first segment is
non-empty and begins with `[a-zA-Z_]`, so the empty case (which would
raise in Python) is unreachable and mapped to `false`. -/
def is_likely_reference (value : String) : Bool :=
  let parts := splitDots value
  if parts.length < 2 then false
  else
    let first_part := parts.headD ""
    if first_part ∈ ["module", "data"] then true
    else
      match first_part.data with
      | [] => false
      | c :: _ => c.isAlpha && first_part.data.contains '_'

/-- Insertion into the per-string reference set, preserving first-insertion
order (only membership is ever observed downstream). -/
def insertRef (refs : List String) (r : String) : List String :=
  if r ∈ refs then refs else refs ++ [r]

/-- The interpolation-rule half of `_extract_references_from_string`:
clean every `${...}` match and collect the survivors as a set. -/
def interpolationRefs (value : String) : List String :=
  (interpolationMatches value).foldl
    (fun acc m =>
      match clean_reference m with
      | some r => insertRef acc r
      | none => acc)
    []

/-- The bare-rule half: filter by `_is_likely_reference`, then clean. -/
def bareRefs (value : String) : List String :=
  (bareMatches value).foldl
    (fun acc m =>
      if is_likely_reference m then
        match clean_reference m with
        | some r => insertRef acc r
        | none => acc
      else acc)
    []

/-- `TerraformParser._extract_references_from_string`: strings shorter
than 3 characters are skipped; bare-form scanning runs only when the
interpolation rule produced no reference. -/
def extract_references_from_string (value : String) : List String :=
  if value.data.length < 3 then []
  else
    let interp := interpolationRefs value
    if interp.isEmpty then bareRefs value else interp

/-! ## Terraform parser (`parsers/terraform/parser.py`) -/

namespace Terraform

/-- One entry of a plan's `resource_changes` list, restricted to the
fields `_process_resource` reads (each with the `.get` default the source
applies). -/
structure TFResource where
  address : String := ""
  type : String := ""
  name : String := ""
  module_address : String := ""
  provider_name : String := ""
  change_actions : List String := []
  change_after : KVal := kdict []
  change_before : KVal := kdict []
  depends_on : List String := []

/-- A plan document that passed the `'resource_changes' in plan_json`
structural check (its absence raises `ValueError` before any graph is
built, so every parse run modelled here starts from such a plan). -/
structure TFPlan where
  resource_changes : List TFResource
  terraform_version : String := "unknown"
  format_version : String := "unknown"

/-- Parser state: the graph under construction plus `_resource_cache`.
Assignment prepends, lookup takes the first match, which models Python
dict set/get (the latest assignment wins). -/
structure TFState where
  graph : ResourceGraph
  cache : List (String × String)

def cacheGet (cache : List (String × String)) (key : String) : Option String :=
  match cache with
  | [] => none
  | (k, v) :: rest => if k = key then some v else cacheGet rest key

/-- The node id built in `_process_resource`:
`f"tf:{resource_type}:{address}"`. -/
def tfNodeId (r : TFResource) : String := "tf:" ++ r.type ++ ":" ++ r.address

/-- `TerraformParser._get_change_type`. -/
def _get_change_type (actions : List String) : String :=
  if actions = [] then "no-op"
  else if actions = ["create"] then "create"
  else if actions = ["delete"] then "delete"
  else if actions = ["update"] then "update"
  else if "create" ∈ actions ∧ "delete" ∈ actions then "replace"
  else "unknown"

/-- `TerraformParser._get_source_info`. -/
def _get_source_info (r : TFResource) : KVal :=
  kdict [("address", .s r.address), ("module", .s r.module_address)]

/-- The `Node` built in `_process_resource`. -/
def mkTFNode (r : TFResource) : Node :=
  { id := tfNodeId r
    type := "tf." ++ r.type
    name := r.name
    «namespace» := some (if r.module_address = "" then "root" else r.module_address)
    attributes := KObj.ofList
      [ ("change_actions", klist (r.change_actions.map KVal.s))
      , ("change_type", .s (_get_change_type r.change_actions))
      , ("provider", .s r.provider_name)
      , ("address", .s r.address)
      , ("module", .s r.module_address)
      , ("source", _get_source_info r)
      , ("change_after", r.change_after)
      , ("change_before", r.change_before) ] }

/-- `TerraformParser._find_target_node`. -/
def _find_target_node (st : TFState) (source_node_id target_address : String) :
    Option String :=
  match cacheGet st.cache target_address with
  | some nid => some nid
  | none =>
    match st.graph.nodes.find? (fun n => n.id == source_node_id) with
    | none => none
    | some source_node =>
      let source_module : Option String :=
        match source_node.namespace with
        | some ns => if ns = "root" then none else some ns
        | none => none
      if startsWithStr target_address "module." then
        cacheGet st.cache target_address
      else
        match source_module with
        | some m =>
            if !m.data.isEmpty then
              cacheGet st.cache (m ++ "." ++ target_address)
            else none
        | none => none

/-- `TerraformParser._add_dependency_edge`: resolve the target; on a
resolution miss, silently add nothing; otherwise append the edge unless
an edge with the same `(from_id, to_id, reason)` triple already exists. -/
def _add_dependency_edge (st : TFState)
    (source_node_id target_address reason : String) : TFState :=
  match _find_target_node st source_node_id target_address with
  | some target_node_id =>
      if st.graph.edges.any (fun e =>
          e.from_id == source_node_id && e.to_id == target_node_id &&
          e.reason == reason) then
        st
      else
        { st with
            graph := st.graph.add_edge ⟨source_node_id, target_node_id, reason⟩ }
  | none => st

/-- `TerraformParser._process_resource`: append the node, register the
bare address (and, for module resources, the module-qualified spelling)
in the cache, then process the explicit `depends_on` list — note that
this happens while later resources of the plan are still unprocessed. -/
def _process_resource (st : TFState) (r : TFResource) : TFState :=
  let node_id := tfNodeId r
  let g1 := st.graph.add_node (mkTFNode r)
  let cache1 := (r.address, node_id) :: st.cache
  let cache2 :=
    if r.module_address ≠ "" then
      (r.module_address ++ "." ++ r.address, node_id) :: cache1
    else cache1
  r.depends_on.foldl
    (fun s dep => _add_dependency_edge s node_id dep "depends_on")
    { graph := g1, cache := cache2 }

mutual

/-- References extracted by `_scan_attributes_for_references` from a
dict, in traversal order (the source interleaves edge insertion with this
walk; extraction reads no parser state, so pre-collecting and folding
`_add_dependency_edge` over the result is observationally identical). -/
def collectRefsObj : KObj → List String
  | .nil => []
  | .cons _ v rest => collectRefsVal v ++ collectRefsObj rest

/-- A dict value: strings are scanned, dicts recursed into, lists handled
item-wise, other scalars ignored. -/
def collectRefsVal : KVal → List String
  | .s v => extract_references_from_string v
  | .d o => collectRefsObj o
  | .l a => collectRefsArr a
  | _ => []

/-- List items: dict items are recursed into, string items scanned, and
anything else — including nested lists — is skipped. -/
def collectRefsArr : KArr → List String
  | .nil => []
  | .cons (.d o) rest => collectRefsObj o ++ collectRefsArr rest
  | .cons (.s v) rest =>
      extract_references_from_string v ++ collectRefsArr rest
  | .cons _ rest => collectRefsArr rest

end

/-- `TerraformParser._scan_attributes_for_references`. -/
def _scan_attributes_for_references (st : TFState) (source_node_id : String)
    (attributes : KObj) : TFState :=
  (collectRefsObj attributes).foldl
    (fun s ref => _add_dependency_edge s source_node_id ref "attribute_reference")
    st

/-- Loop body of `_find_implicit_dependencies`, one node per call: skip
the node when its `change_actions` attribute is falsy (missing or the
empty list), otherwise scan its `change_after` tree when it is a dict. -/
def _implicit_step (s : TFState) (node : Node) : TFState :=
  if pyTruthy (node.attributes.find? "change_actions") then
    match node.attributes.find? "change_after" with
    | some (.d o) => _scan_attributes_for_references s node.id o
    | _ => s
  else s

/-- `TerraformParser._find_implicit_dependencies`. -/
def _find_implicit_dependencies (st : TFState) : TFState :=
  st.graph.nodes.foldl _implicit_step st

def tfInitMeta (plan : TFPlan) : KObj :=
  KObj.ofList
    [ ("parser", .s "terraform")
    , ("terraform_version", .s plan.terraform_version)
    , ("format_version", .s plan.format_version) ]

/-- `TerraformParser.parse_plan`, keeping the final parser state (the
Python parser object retains `self._resource_cache` after the run). -/
def parse_plan_state (plan : TFPlan) : TFState :=
  let st0 : TFState :=
    { graph := { nodes := [], edges := [], meta := tfInitMeta plan }
      cache := [] }
  _find_implicit_dependencies (plan.resource_changes.foldl _process_resource st0)

/-- `TerraformParser.parse_plan`: the returned graph. -/
def parse_plan (plan : TFPlan) : ResourceGraph := (parse_plan_state plan).graph

end Terraform

/-! ## Kubernetes parser (`parsers/kubernetes/parser.py`)

File reading and `yaml.safe_load_all` happen at the boundary; a parse
input is therefore a list of `(path, documents)` pairs, each document a
parsed YAML value. -/

namespace Kubernetes

/-- Parser state: graph under construction plus `_resource_cache`
(string key to `Node`). Assignment prepends, lookup takes the first
match, modelling Python dict set/get. -/
structure KState where
  graph : ResourceGraph
  cache : List (String × Node)

def cacheGetNode (cache : List (String × Node)) (key : String) : Option Node :=
  match cache with
  | [] => none
  | (k, v) :: rest => if k = key then some v else cacheGetNode rest key

/-- `KubernetesParser._process_resource`: documents whose `kind` or
`metadata` is missing or falsy are silently skipped; otherwise a node is
appended and registered in the cache under its id and under
`namespace/name`. A non-string `kind` or non-dict `metadata` would raise
in Python and never occurs in a modelled input. -/
def _process_resource (st : KState) (resource : KVal) (source_file : String) :
    KState :=
  match resource with
  | .d obj =>
    match obj.find? "kind", obj.find? "metadata" with
    | some (.s kindRaw), some (.d metadata) =>
        if kindRaw.data.isEmpty || !(KVal.d metadata).truthy then st
        else
          let kind := lowerStr kindRaw
          let name := (KVal.d metadata).strD "name" "unknown"
          let ns := (KVal.d metadata).strD "namespace" "default"
          let node_id := "k8s:" ++ kind ++ ":" ++ ns ++ "/" ++ name
          let node : Node :=
            { id := node_id
              type := "k8s." ++ kind
              name := name
              «namespace» := some ns
              attributes := KObj.ofList
                [ ("kind", .s kind)
                , ("namespace", .s ns)
                , ("source_file", .s source_file)
                , ("spec", (obj.find? "spec").getD (kdict []))
                , ("metadata", .d metadata) ] }
          { graph := st.graph.add_node node
            cache := (ns ++ "/" ++ name, node) :: (node_id, node) :: st.cache }
    | _, _ => st
  | _ => st

def workload_types : List String :=
  ["k8s.deployment", "k8s.statefulset", "k8s.daemonset", "k8s.pod"]

/-- `all(labels.get(k) == v for k, v in selector_labels.items())`. -/
def matchesSelector (selector : KObj) (labels : KVal) : Bool :=
  selector.toList.all (fun kv => KVal.beq (labels.getN kv.1) kv.2)

/-- `KubernetesParser._find_workloads_by_labels`: workload-typed nodes
whose `metadata.labels` (the node's own metadata, not the pod template's)
contain every selector entry. -/
def _find_workloads_by_labels (st : KState) (selector : KObj) : List Node :=
  st.graph.nodes.filter (fun node =>
    workload_types.contains node.type &&
    (let metadata := (node.attributes.find? "metadata").getD (kdict [])
     let labels := metadata.getD "labels" (kdict [])
     matchesSelector selector labels))

/-- `KubernetesParser._infer_service_selectors`: for each service with a
truthy selector, append one `selector_match` edge per matching workload
(no existing-edge check). -/
def _infer_service_selectors (st : KState) : KState :=
  let services := st.graph.nodes.filter (fun n => n.type == "k8s.service")
  services.foldl
    (fun s service =>
      let spec := (service.attributes.find? "spec").getD (kdict [])
      let selector := spec.getD "selector" (kdict [])
      match selector with
      | .d selObj =>
          if selector.truthy then
            (_find_workloads_by_labels s selObj).foldl
              (fun s2 workload =>
                { s2 with graph :=
                    s2.graph.add_edge ⟨service.id, workload.id, "selector_match"⟩ })
              s
          else s
      | _ => s)
    st

/-- `KubernetesParser._find_service`. -/
def _find_service (st : KState) (name ns : String) : Option Node :=
  cacheGetNode st.cache ("k8s:service:" ++ ns ++ "/" ++ name)

/-- `KubernetesParser._infer_ingress_backends`: walk
`spec.rules[].http.paths[].backend`; the `networking.k8s.io/v1` shape
(`'service' in backend`) carries its own optional namespace, the legacy
shape (`serviceName`) inherits the ingress namespace; resolved backends
get an `ingress_backend` edge, misses are skipped. -/
def _infer_ingress_backends (st : KState) : KState :=
  let ingresses := st.graph.nodes.filter (fun n => n.type == "k8s.ingress")
  ingresses.foldl
    (fun s ingress =>
      let spec := (ingress.attributes.find? "spec").getD (kdict [])
      let rules := spec.getD "rules" (klist [])
      rules.items.foldl
        (fun s2 rule =>
          let http := rule.getD "http" (kdict [])
          let paths := http.getD "paths" (klist [])
          paths.items.foldl
            (fun s3 path =>
              let backend := path.getD "backend" (kdict [])
              let ingressNs := ingress.namespace.getD "None"
              let pair : KVal × String :=
                match backend with
                | .d bo =>
                    match bo.find? "service" with
                    | some svc => (svc.getN "name", svc.strD "namespace" ingressNs)
                    | none => (backend.getN "serviceName", ingressNs)
                | _ => (KVal.null, ingressNs)
              match pair.1 with
              | .s sname =>
                  if !sname.data.isEmpty then
                    match _find_service s3 sname pair.2 with
                    | some service_node =>
                        { s3 with
                            graph := s3.graph.add_edge ⟨ingress.id, service_node.id, "ingress_backend"⟩ }
                    | none => s3
                  else s3
              | _ => s3)
            s2)
        s)
    st

/-- `KubernetesParser._add_config_reference`: the target is assumed to
live in the workload's namespace; on a cache hit append a
`{reason}_{config_type}` edge (no existing-edge check), otherwise skip. -/
def _add_config_reference (st : KState) (workload : Node)
    (config_name config_type reason : String) : KState :=
  let ns := workload.namespace.getD "None"
  let config_id := "k8s:" ++ config_type ++ ":" ++ ns ++ "/" ++ config_name
  match cacheGetNode st.cache config_id with
  | some config_node =>
      { st with
          graph := st.graph.add_edge ⟨workload.id, config_node.id, reason ++ "_" ++ config_type⟩ }
  | none => st

/-- `entry.get(key, {}).get('name')`. -/
def refName (entry : KVal) (key : String) : KVal :=
  (entry.getD key (kdict [])).getN "name"

/-- `if config_map_ref: self._add_config_reference(...)` — the guard is
on the extracted name; names are strings in every modelled input. -/
def addIfNamed (st : KState) (workload : Node) (ref : KVal)
    (config_type reason : String) : KState :=
  match ref with
  | .s nm =>
      if !nm.data.isEmpty then
        _add_config_reference st workload nm config_type reason
      else st
  | _ => st

/-- `KubernetesParser._find_config_references_in_workload`: deployments
read containers/volumes from the pod template, pods directly; `envFrom`,
`env[].valueFrom` and volume references each produce their tagged edge.
(The `volumeMounts` loop in the source is a no-op and is omitted.) -/
def _find_config_references_in_workload (st : KState) (workload : Node) :
    KState :=
  let spec := (workload.attributes.find? "spec").getD (kdict [])
  let containers :=
    if workload.type == "k8s.deployment" then
      ((spec.getD "template" (kdict [])).getD "spec" (kdict [])).getD
        "containers" (klist [])
    else spec.getD "containers" (klist [])
  let st1 :=
    containers.items.foldl
      (fun s container =>
        let s1 :=
          (container.getD "envFrom" (klist [])).items.foldl
            (fun s2 env_from =>
              let s3 := addIfNamed s2 workload (refName env_from "configMapRef")
                "configmap" "envFrom"
              addIfNamed s3 workload (refName env_from "secretRef")
                "secret" "envFrom")
            s
        (container.getD "env" (klist [])).items.foldl
          (fun s2 env_var =>
            let value_from := env_var.getD "valueFrom" (kdict [])
            let s3 := addIfNamed s2 workload (refName value_from "configMapKeyRef")
              "configmap" "env"
            addIfNamed s3 workload (refName value_from "secretKeyRef")
              "secret" "env")
          s1)
      st
  let volumes :=
    if workload.type == "k8s.deployment" then
      ((spec.getD "template" (kdict [])).getD "spec" (kdict [])).getD
        "volumes" (klist [])
    else spec.getD "volumes" (klist [])
  volumes.items.foldl
    (fun s volume =>
      let s1 := addIfNamed s workload (refName volume "configMap")
        "configmap" "volume"
      addIfNamed s1 workload (refName volume "secret") "secret" "volume")
    st1

/-- `KubernetesParser._infer_config_references`. -/
def _infer_config_references (st : KState) : KState :=
  let pods := st.graph.nodes.filter (fun n => n.type == "k8s.pod")
  let deployments := st.graph.nodes.filter (fun n => n.type == "k8s.deployment")
  (pods ++ deployments).foldl _find_config_references_in_workload st

/-- `KubernetesParser._infer_relationships`: the three passes, in source
order. -/
def _infer_relationships (st : KState) : KState :=
  _infer_config_references (_infer_ingress_backends (_infer_service_selectors st))

/-- `KubernetesParser._parse_file` minus the I/O: empty and non-dict
documents are skipped (`if doc and isinstance(doc, dict)`). -/
def _parse_file (st : KState) (file : String × List KVal) : KState :=
  file.2.foldl
    (fun s doc =>
      match doc with
      | .d _ => if doc.truthy then _process_resource s doc file.1 else s
      | _ => s)
    st

def k8sInitMeta (files : List (String × List KVal)) : KObj :=
  KObj.ofList
    [ ("parser", .s "kubernetes")
    , ("sources", klist (files.map (fun f => .s f.1))) ]

/-- `KubernetesParser.parse_files`, keeping the final state. -/
def parse_files_state (files : List (String × List KVal)) : KState :=
  let st0 : KState :=
    { graph := { nodes := [], edges := [], meta := k8sInitMeta files }
      cache := [] }
  _infer_relationships (files.foldl _parse_file st0)

/-- `KubernetesParser.parse_files`: the returned graph. -/
def parse_files (files : List (String × List KVal)) : ResourceGraph :=
  (parse_files_state files).graph

end Kubernetes

/-! ## Helm parser (`parsers/helm/parser.py`)

The renderer collaborator (`_render_helm_chart`) and chart-descriptor
reading are external I/O; a parse run is therefore parameterised by their
results: `rendered_manifests` is the renderer outcome (`none` covers
missing tool, non-zero exit and blank output, each of which makes
`_render_helm_chart` return `None`), `rendered_docs` is the YAML documents
of the rendered text as decoded at the boundary, and `chartYaml` the
parsed `Chart.yaml` (`none` when absent or unreadable). -/

namespace Helm

def helmInitMeta (chart_path : String) (values_files : List String)
    (ns release_name : String) : KObj :=
  KObj.ofList
    [ ("parser", .s "helm")
    , ("chart_path", .s chart_path)
    , ("values_files", klist (values_files.map KVal.s))
    , ("namespace", .s ns)
    , ("release_name", .s release_name) ]

/-- The per-node tagging in `_parse_rendered_manifests`:
`node.attributes["helm_chart"] = chart_path; node.attributes["source"] = "helm"`. -/
def tagHelmNode (chart_path : String) (n : Node) : Node :=
  { n with attributes :=
      (n.attributes.insert "helm_chart" (.s chart_path)).insert "source" (.s "helm") }

/-- `HelmParser._parse_rendered_manifests` on the normal path: run the
Kubernetes parser over the rendered documents (written to a temp file in
the source), then merge its nodes (tagged with chart provenance) and
edges into the Helm graph. -/
def _parse_rendered_manifests (g : ResourceGraph)
    (chart_path temp_path : String) (docs : List KVal) : ResourceGraph :=
  let k8s_graph := Kubernetes.parse_files [(temp_path, docs)]
  let g1 := k8s_graph.nodes.foldl
    (fun acc n => acc.add_node (tagHelmNode chart_path n)) g
  k8s_graph.edges.foldl (fun acc e => acc.add_edge e) g1

/-- One metadata-only dependency node of `_extract_helm_metadata`. -/
def depNode (chart_data : KObj) (dep : KVal) : Node :=
  { id := "helm:dependency:" ++ dep.strD "name" "unknown"
    type := "helm.dependency"
    name := dep.strD "name" "unknown"
    attributes := KObj.ofList
      [ ("version", dep.getD "version" (.s ""))
      , ("repository", dep.getD "repository" (.s ""))
      , ("condition", dep.getD "condition" (.s ""))
      , ("chart", (chart_data.find? "name").getD (.s "")) ] }

/-- `HelmParser._extract_helm_metadata`: record `chart_metadata` in the
graph's meta and append one node per declared dependency. An absent or
unreadable `Chart.yaml` (or a non-dict one, whose `.get` raises into the
surrounding `except`) leaves the graph unchanged. The `dependencies`
value is a list in every modelled input. -/
def _extract_helm_metadata (g : ResourceGraph) (chartYaml : Option KVal) :
    ResourceGraph :=
  match chartYaml with
  | some (.d chart_data) =>
      let meta1 := g.meta.insert "chart_metadata" (kdict
        [ ("name", (chart_data.find? "name").getD (.s ""))
        , ("version", (chart_data.find? "version").getD (.s ""))
        , ("description", (chart_data.find? "description").getD (.s ""))
        , ("dependencies", (chart_data.find? "dependencies").getD (klist [])) ])
      ((chart_data.find? "dependencies").getD (klist [])).items.foldl
        (fun acc dep => acc.add_node (depNode chart_data dep))
        { g with meta := meta1 }
  | some _ => g
  | none => g

/-- `HelmParser.parse_chart`: reset state; if the renderer yielded no
output (`if not rendered_manifests`), return the graph immediately —
before `_extract_helm_metadata` runs; otherwise parse the rendered
manifests and then extract the chart metadata. -/
def parse_chart (chart_path : String) (values_files : List String)
    (ns release_name : String) (rendered_manifests : Option String)
    (rendered_docs : List KVal) (temp_path : String)
    (chartYaml : Option KVal) : ResourceGraph :=
  let g0 : ResourceGraph :=
    { nodes := [], edges := []
      meta := helmInitMeta chart_path values_files ns release_name }
  match rendered_manifests with
  | none => g0
  | some txt =>
      if txt.data.isEmpty then g0
      else
        _extract_helm_metadata
          (_parse_rendered_manifests g0 chart_path temp_path rendered_docs)
          chartYaml

end Helm

/-! ## Generic helper lemmas -/

/-- An invariant preserved by every step of a fold holds of the result. -/
theorem foldlInv {α β : Type} {P : α → Prop} {f : α → β → α} :
    ∀ (l : List β) (a : α), P a → (∀ x b, b ∈ l → P x → P (f x b)) →
      P (l.foldl f a)
  | [], a, h0, _ => h0
  | b :: l, a, h0, hstep =>
      foldlInv l (f a b) (hstep a b (by simp) h0)
        (fun x c hc hx => hstep x c (by simp [hc]) hx)

theorem nodup_append_singleton {α : Type} [DecidableEq α] {l : List α} {a : α}
    (ha : a ∉ l) (hl : l.Nodup) : (l ++ [a]).Nodup := by
  simp [List.nodup_append, hl, ha]

/-! ## Structural lemmas about the Terraform parser -/

namespace Terraform

theorem cacheGet_mem {cache : List (String × String)} {k v : String}
    (h : cacheGet cache k = some v) : (k, v) ∈ cache := by
  induction cache with
  | nil => simp [cacheGet] at h
  | cons kv rest ih =>
      obtain ⟨k', v'⟩ := kv
      by_cases hk : k' = k
      · subst hk
        simp [cacheGet] at h
        simp [h]
      · simp [cacheGet, hk] at h
        exact List.mem_cons_of_mem _ (ih h)

/-- `_add_dependency_edge` never changes the node list. -/
theorem add_dep_nodes (st : TFState) (src t r : String) :
    (_add_dependency_edge st src t r).graph.nodes = st.graph.nodes := by
  unfold _add_dependency_edge
  split
  · split
    · rfl
    · simp [ResourceGraph.add_edge]
  · rfl

/-- `_add_dependency_edge` never changes the cache. -/
theorem add_dep_cache (st : TFState) (src t r : String) :
    (_add_dependency_edge st src t r).cache = st.cache := by
  unfold _add_dependency_edge
  split
  · split
    · rfl
    · rfl
  · rfl

/-- `_add_dependency_edge` never changes the meta map. -/
theorem add_dep_meta (st : TFState) (src t r : String) :
    (_add_dependency_edge st src t r).graph.meta = st.graph.meta := by
  unfold _add_dependency_edge
  split
  · split
    · rfl
    · simp [ResourceGraph.add_edge]
  · rfl

/-- Every edge appended by `_add_dependency_edge` has the given source
and reason; all other edges were already present. -/
theorem add_dep_edgesP {Q : Edge → Prop} {st : TFState} {src t r : String}
    (h : ∀ e ∈ st.graph.edges, Q e)
    (hnew : ∀ tgt, Q ⟨src, tgt, r⟩) :
    ∀ e ∈ (_add_dependency_edge st src t r).graph.edges, Q e := by
  unfold _add_dependency_edge
  split
  · split
    · exact h
    · intro e he
      simp [ResourceGraph.add_edge] at he
      rcases he with he | he
      · exact h e he
      · subst he; exact hnew _
  · exact h

/-- A successful `_find_target_node` answer always comes out of the
cache. -/
theorem find_target_mem {st : TFState} {src t tgt : String}
    (hc : ∀ kv ∈ st.cache, kv.2 ∈ st.graph.nodeIds)
    (h : _find_target_node st src t = some tgt) : tgt ∈ st.graph.nodeIds := by
  unfold _find_target_node at h
  cases hcg : cacheGet st.cache t with
  | some nid =>
      rw [hcg] at h
      simp at h
      subst h
      exact hc _ (cacheGet_mem hcg)
  | none =>
      rw [hcg] at h
      simp only [] at h
      cases hf : st.graph.nodes.find? (fun n => n.id == src) with
      | none => rw [hf] at h; simp at h
      | some sn =>
          rw [hf] at h
          simp only [] at h
          cases hns : sn.namespace with
          | none =>
              rw [hns] at h
              by_cases hsw : startsWithStr t "module." = true
              · simp [hsw, hcg] at h
              · simp [hsw] at h
          | some ns =>
              rw [hns] at h
              by_cases hsw : startsWithStr t "module." = true
              · simp [hsw, hcg] at h
              · by_cases hroot : ns = "root"
                · simp [hsw, hroot] at h
                · by_cases hne : (!ns.data.isEmpty) = true
                  · simp [hsw, hroot, hne] at h
                    exact hc _ (cacheGet_mem h)
                  · simp [hsw, hroot, hne] at h

/-- The parser-state invariant behind the no-dangling-edges property:
all edges are well-formed and every cache entry points at an existing
node id. -/
def TFInv (st : TFState) : Prop :=
  (∀ e ∈ st.graph.edges, edgeWellFormed st.graph e) ∧
  (∀ kv ∈ st.cache, kv.2 ∈ st.graph.nodeIds)

theorem add_dep_inv {st : TFState} {src t r : String}
    (hinv : TFInv st) (hsrc : src ∈ st.graph.nodeIds) :
    TFInv (_add_dependency_edge st src t r) := by
  obtain ⟨hE, hC⟩ := hinv
  unfold _add_dependency_edge
  split
  · next tgt hft =>
      split
      · exact ⟨hE, hC⟩
      · constructor
        · intro e he
          simp [ResourceGraph.add_edge] at he
          rcases he with he | he
          · have := hE e he
            simpa [edgeWellFormed, ResourceGraph.nodeIds, ResourceGraph.add_edge]
              using this
          · subst he
            constructor
            · simpa [ResourceGraph.nodeIds, ResourceGraph.add_edge] using hsrc
            · simpa [ResourceGraph.nodeIds, ResourceGraph.add_edge]
                using find_target_mem hC hft
        · intro kv hkv
          simpa [ResourceGraph.nodeIds, ResourceGraph.add_edge] using hC kv hkv
  · exact ⟨hE, hC⟩

/-- Folding `_add_dependency_edge` over a list of targets leaves nodes
untouched. -/
theorem fold_dep_nodes (deps : List String) (nid rsn : String) :
    ∀ s : TFState,
      ((deps.foldl (fun s2 dep => _add_dependency_edge s2 nid dep rsn) s).graph.nodes)
        = s.graph.nodes := by
  induction deps with
  | nil => intro s; rfl
  | cons dep rest ih =>
      intro s
      simpa [add_dep_nodes] using ih (_add_dependency_edge s nid dep rsn)

theorem fold_dep_cache (deps : List String) (nid rsn : String) :
    ∀ s : TFState,
      ((deps.foldl (fun s2 dep => _add_dependency_edge s2 nid dep rsn) s).cache)
        = s.cache := by
  induction deps with
  | nil => intro s; rfl
  | cons dep rest ih =>
      intro s
      simpa [add_dep_cache] using ih (_add_dependency_edge s nid dep rsn)

/-- `_process_resource` appends exactly the node `mkTFNode r`. -/
theorem process_nodes (st : TFState) (r : TFResource) :
    (_process_resource st r).graph.nodes = st.graph.nodes ++ [mkTFNode r] := by
  unfold _process_resource
  simp [fold_dep_nodes, ResourceGraph.add_node]

theorem process_cache (st : TFState) (r : TFResource) :
    (_process_resource st r).cache =
      (if r.module_address ≠ "" then
        [(r.module_address ++ "." ++ r.address, tfNodeId r)]
      else []) ++ (r.address, tfNodeId r) :: st.cache := by
  unfold _process_resource
  by_cases hm : r.module_address ≠ ""
  · simp [fold_dep_cache, hm]
  · simp [fold_dep_cache, hm]


theorem fold_dep_inv {nid rsn : String} :
    ∀ (deps : List String) (s : TFState), TFInv s → nid ∈ s.graph.nodeIds →
      TFInv (deps.foldl (fun s2 dep => _add_dependency_edge s2 nid dep rsn) s)
  | [], _, hinv, _ => hinv
  | dep :: rest, s, hinv, hsrc => by
      have hsrc' : nid ∈ (_add_dependency_edge s nid dep rsn).graph.nodeIds := by
        simpa [ResourceGraph.nodeIds, add_dep_nodes] using hsrc
      simpa using fold_dep_inv rest _ (add_dep_inv hinv hsrc) hsrc'

/-- Preservation of the well-formedness invariant by `_process_resource`:
the fresh node is appended before its cache entries are written, and the
explicit `depends_on` edges use the fresh node as source. -/
theorem process_inv {st : TFState} {r : TFResource} (h : TFInv st) :
    TFInv (_process_resource st r) := by
  obtain ⟨hE, hC⟩ := h
  unfold _process_resource
  simp only []
  apply fold_dep_inv
  · constructor
    · intro e he
      have he' : e ∈ st.graph.edges := by
        simpa [ResourceGraph.add_node] using he
      obtain ⟨h1, h2⟩ := hE e he'
      constructor
      · simp [ResourceGraph.nodeIds, ResourceGraph.add_node]
        left
        simpa [ResourceGraph.nodeIds] using h1
      · simp [ResourceGraph.nodeIds, ResourceGraph.add_node]
        left
        simpa [ResourceGraph.nodeIds] using h2
    · intro kv hkv
      have hnidmem : tfNodeId r ∈ (st.graph.add_node (mkTFNode r)).nodeIds := by
        simp [ResourceGraph.nodeIds, ResourceGraph.add_node, mkTFNode]
      have hold : kv ∈ st.cache → kv.2 ∈ (st.graph.add_node (mkTFNode r)).nodeIds := by
        intro hmem
        have := hC kv hmem
        simp [ResourceGraph.nodeIds, ResourceGraph.add_node]
        left
        simpa [ResourceGraph.nodeIds] using this
      by_cases hm : r.module_address = ""
      · simp [hm] at hkv
        rcases hkv with hkv | hkv
        · rw [hkv]; exact hnidmem
        · exact hold hkv
      · simp [hm] at hkv
        rcases hkv with hkv | hkv | hkv
        · rw [hkv]; exact hnidmem
        · rw [hkv]; exact hnidmem
        · exact hold hkv
  · simp [ResourceGraph.nodeIds, ResourceGraph.add_node, mkTFNode]

theorem scan_nodes (st : TFState) (src : String) (attrs : KObj) :
    (_scan_attributes_for_references st src attrs).graph.nodes = st.graph.nodes :=
  fold_dep_nodes (collectRefsObj attrs) src "attribute_reference" st

theorem scan_cache (st : TFState) (src : String) (attrs : KObj) :
    (_scan_attributes_for_references st src attrs).cache = st.cache :=
  fold_dep_cache (collectRefsObj attrs) src "attribute_reference" st

theorem scan_inv {st : TFState} {src : String} {attrs : KObj}
    (h : TFInv st) (hsrc : src ∈ st.graph.nodeIds) :
    TFInv (_scan_attributes_for_references st src attrs) :=
  fold_dep_inv (collectRefsObj attrs) st h hsrc

theorem implicit_step_nodes (s : TFState) (node : Node) :
    (_implicit_step s node).graph.nodes = s.graph.nodes := by
  unfold _implicit_step
  split
  · split
    all_goals first
      | rw [scan_nodes]
      | rfl
  · rfl

theorem implicit_step_inv {s : TFState} {node : Node}
    (h : TFInv s) (hmem : node.id ∈ s.graph.nodeIds) :
    TFInv (_implicit_step s node) := by
  unfold _implicit_step
  split
  · split
    all_goals first
      | exact scan_inv h hmem
      | exact h
  · exact h

theorem implicit_nodes (st : TFState) :
    (_find_implicit_dependencies st).graph.nodes = st.graph.nodes := by
  unfold _find_implicit_dependencies
  exact foldlInv (P := fun s => s.graph.nodes = st.graph.nodes)
    (f := _implicit_step) st.graph.nodes st rfl
    (fun x node _ hx => by
      show (_implicit_step x node).graph.nodes = st.graph.nodes
      rw [implicit_step_nodes]; exact hx)

theorem implicit_inv {st : TFState} (h : TFInv st) :
    TFInv (_find_implicit_dependencies st) := by
  unfold _find_implicit_dependencies
  have main := foldlInv (P := fun s => TFInv s ∧ s.graph.nodes = st.graph.nodes)
    (f := _implicit_step) st.graph.nodes st ⟨h, rfl⟩
    (fun x node hmem hx => by
      obtain ⟨hxinv, hxn⟩ := hx
      have hsrc : node.id ∈ x.graph.nodeIds := by
        simp only [ResourceGraph.nodeIds, hxn]
        exact List.mem_map_of_mem _ hmem
      exact ⟨implicit_step_inv hxinv hsrc,
        by rw [implicit_step_nodes]; exact hxn⟩)
  exact main.1

theorem fold_process_nodes :
    ∀ (rs : List TFResource) (st0 : TFState),
      (rs.foldl _process_resource st0).graph.nodes
        = st0.graph.nodes ++ rs.map mkTFNode
  | [], st0 => by simp
  | r :: rest, st0 => by
      rw [List.foldl_cons, fold_process_nodes rest, process_nodes]
      simp

/-- The node list of a Terraform parse is exactly one node per resource
change, in plan order. -/
theorem parse_plan_nodes (plan : TFPlan) :
    (parse_plan plan).nodes = plan.resource_changes.map mkTFNode := by
  unfold parse_plan parse_plan_state
  rw [implicit_nodes, fold_process_nodes]
  rfl

theorem parse_plan_inv (plan : TFPlan) : TFInv (parse_plan_state plan) := by
  unfold parse_plan_state
  apply implicit_inv
  refine foldlInv plan.resource_changes _ ?_ ?_
  · exact ⟨by intro e he; simp at he, by intro kv hkv; simp at hkv⟩
  · intro x r _ hx
    exact process_inv hx

/-! ### The `(from_id, to_id, reason)` dedup invariant (Terraform) -/

/-- No two edges of the graph share their dedup triple. -/
def NodupTriples (g : ResourceGraph) : Prop :=
  (g.edges.map Edge.triple).Nodup

theorem add_dep_triples {st : TFState} {src t r : String}
    (h : NodupTriples st.graph) :
    NodupTriples (_add_dependency_edge st src t r).graph := by
  unfold _add_dependency_edge
  split
  · next tgt hft =>
      split
      · exact h
      · next hany =>
          unfold NodupTriples
          simp only [ResourceGraph.add_edge, List.map_append, List.map_cons,
            List.map_nil]
          apply nodup_append_singleton _ h
          intro hmem
          apply hany
          simp only [List.mem_map] at hmem
          obtain ⟨e', he', htr⟩ := hmem
          rw [List.any_eq_true]
          refine ⟨e', he', ?_⟩
          have h1 : e'.from_id = src := congrArg (·.1) htr
          have h2 : e'.to_id = tgt := congrArg (·.2.1) htr
          have h3 : e'.reason = r := congrArg (·.2.2) htr
          simp [Edge.triple] at h1 h2 h3
          simp [h1, h2, h3]
  · exact h

theorem fold_dep_triples {nid rsn : String} :
    ∀ (deps : List String) (s : TFState), NodupTriples s.graph →
      NodupTriples ((deps.foldl
        (fun s2 dep => _add_dependency_edge s2 nid dep rsn) s)).graph
  | [], _, h => h
  | dep :: rest, s, h => fold_dep_triples rest _ (add_dep_triples h)

theorem process_triples {st : TFState} {r : TFResource}
    (h : NodupTriples st.graph) : NodupTriples (_process_resource st r).graph := by
  unfold _process_resource
  simp only []
  apply fold_dep_triples
  simpa [NodupTriples, ResourceGraph.add_node] using h

theorem scan_triples {st : TFState} {src : String} {attrs : KObj}
    (h : NodupTriples st.graph) :
    NodupTriples (_scan_attributes_for_references st src attrs).graph :=
  fold_dep_triples (collectRefsObj attrs) st h

theorem implicit_step_triples {s : TFState} {node : Node}
    (h : NodupTriples s.graph) : NodupTriples (_implicit_step s node).graph := by
  unfold _implicit_step
  split
  · split
    all_goals first
      | exact scan_triples h
      | exact h
  · exact h

theorem implicit_triples {st : TFState} (h : NodupTriples st.graph) :
    NodupTriples (_find_implicit_dependencies st).graph := by
  unfold _find_implicit_dependencies
  exact foldlInv (P := fun s => NodupTriples s.graph) (f := _implicit_step)
    st.graph.nodes st h (fun x node _ hx => implicit_step_triples hx)

theorem parse_plan_triples (plan : TFPlan) :
    NodupTriples (parse_plan plan) := by
  unfold parse_plan parse_plan_state
  apply implicit_triples
  exact foldlInv (P := fun s => NodupTriples s.graph) (f := _process_resource)
    plan.resource_changes
    { graph := { nodes := [], edges := [], meta := tfInitMeta plan }, cache := [] }
    (by simp [NodupTriples])
    (fun x r _ hx => process_triples hx)

/-! ### Node-id uniqueness (Terraform) -/

theorem mkTFNode_actions (r : TFResource) :
    (mkTFNode r).attributes.find? "change_actions"
      = some (klist (r.change_actions.map KVal.s)) := by
  simp [mkTFNode, KObj.ofList, KObj.find?]

theorem klist_truthy (L : List KVal) : (klist L).truthy = !L.isEmpty := by
  cases L <;> simp [klist, KArr.ofList, KVal.truthy]

theorem mkTFNode_actions_truthy (r : TFResource) :
    pyTruthy ((mkTFNode r).attributes.find? "change_actions")
      = !r.change_actions.isEmpty := by
  rw [mkTFNode_actions]
  cases h : r.change_actions <;> simp [pyTruthy, klist_truthy, h]

end Terraform

/-- Splitting a character-list concatenation at a separator that occurs
in neither prefix: both sides agree. -/
theorem sep_split {c : Char} :
    ∀ (t1 t2 a1 a2 : List Char), c ∉ t1 → c ∉ t2 →
      t1 ++ c :: a1 = t2 ++ c :: a2 → t1 = t2 ∧ a1 = a2
  | [], [], a1, a2, _, _, h => ⟨rfl, by simpa using h⟩
  | [], x :: t2, a1, a2, _, h2, h => by
      simp only [List.nil_append, List.cons_append, List.cons.injEq] at h
      obtain ⟨hx, _⟩ := h
      subst hx
      exact absurd (List.mem_cons_self _ _) h2
  | x :: t1, [], a1, a2, h1, _, h => by
      simp only [List.nil_append, List.cons_append, List.cons.injEq] at h
      obtain ⟨hx, _⟩ := h
      subst hx
      exact absurd (List.mem_cons_self _ _) h1
  | x :: t1, y :: t2, a1, a2, h1, h2, h => by
      simp only [List.cons_append, List.cons.injEq] at h
      obtain ⟨hxy, h'⟩ := h
      have hrec := sep_split t1 t2 a1 a2
        (fun hc => h1 (List.mem_cons_of_mem _ hc))
        (fun hc => h2 (List.mem_cons_of_mem _ hc)) h'
      exact ⟨by rw [hxy, hrec.1], hrec.2⟩

/-- Mapping through one function keeps a list duplicate-free when a
second, duplicate-free projection is refined by it. -/
theorem map_nodup_of_map_nodup {α β γ : Type} {l : List α} {f : α → β} {g : α → γ}
    [DecidableEq β] [DecidableEq γ]
    (h : (l.map g).Nodup)
    (hinj : ∀ a ∈ l, ∀ b ∈ l, f a = f b → g a = g b) : (l.map f).Nodup := by
  induction l with
  | nil => simp
  | cons x xs ih =>
      simp only [List.map_cons, List.nodup_cons] at h ⊢
      obtain ⟨hgx, hxs⟩ := h
      refine ⟨?_, ih hxs (fun a ha b hb =>
        hinj a (List.mem_cons_of_mem _ ha) b (List.mem_cons_of_mem _ hb))⟩
      intro hmem
      rw [List.mem_map] at hmem
      obtain ⟨a, ha, hfa⟩ := hmem
      have hga := hinj a (List.mem_cons_of_mem _ ha) x (List.mem_cons_self _ _) hfa
      exact hgx (by rw [List.mem_map]; exact ⟨a, ha, hga⟩)

namespace Terraform

theorem tfNodeId_data (r : TFResource) :
    (tfNodeId r).data
      = 't' :: 'f' :: ':' :: (r.type.data ++ ':' :: r.address.data) := by
  simp [tfNodeId, String.data_append]

/-- With colon-free resource types, equal node ids force equal
addresses. -/
theorem tfNodeId_inj {r1 r2 : TFResource}
    (h1 : ':' ∉ r1.type.data) (h2 : ':' ∉ r2.type.data)
    (h : tfNodeId r1 = tfNodeId r2) : r1.address = r2.address := by
  have hd := congrArg String.data h
  rw [tfNodeId_data, tfNodeId_data] at hd
  simp only [List.cons.injEq, true_and] at hd
  have hrec := sep_split _ _ _ _ h1 h2 hd
  exact String.ext hrec.2

/-- Uniqueness of Terraform node ids under pairwise-distinct addresses
and colon-free type strings. -/
theorem tf_ids_nodup (plan : TFPlan)
    (hcolon : ∀ r ∈ plan.resource_changes, ':' ∉ r.type.data)
    (haddr : (plan.resource_changes.map (·.address)).Nodup) :
    (parse_plan plan).nodeIds.Nodup := by
  have hids : (parse_plan plan).nodeIds
      = plan.resource_changes.map tfNodeId := by
    rw [ResourceGraph.nodeIds, parse_plan_nodes, List.map_map]
    rfl
  rw [hids]
  exact map_nodup_of_map_nodup haddr
    (fun a ha b hb hf => tfNodeId_inj (hcolon a ha) (hcolon b hb) hf)

end Terraform

/-! ### Provenance of `attribute_reference` edges (Terraform) -/

namespace Terraform

theorem fold_dep_edgesP {Q : Edge → Prop} {nid rsn : String} :
    ∀ (deps : List String) (s : TFState),
      (∀ e ∈ s.graph.edges, Q e) → (∀ tgt, Q ⟨nid, tgt, rsn⟩) →
      ∀ e ∈ (deps.foldl
        (fun s2 dep => _add_dependency_edge s2 nid dep rsn) s).graph.edges, Q e
  | [], _, h, _ => h
  | dep :: rest, s, h, hnew =>
      fold_dep_edgesP rest _ (add_dep_edgesP h hnew) hnew

theorem scan_edgesP {Q : Edge → Prop} {st : TFState}
    {src : String} {attrs : KObj}
    (h : ∀ e ∈ st.graph.edges, Q e)
    (hnew : ∀ tgt, Q ⟨src, tgt, "attribute_reference"⟩) :
    ∀ e ∈ (_scan_attributes_for_references st src attrs).graph.edges, Q e :=
  fold_dep_edgesP (collectRefsObj attrs) st h hnew

theorem implicit_step_edgesP {Q : Edge → Prop} {s : TFState} {node : Node}
    (h : ∀ e ∈ s.graph.edges, Q e)
    (hnew : pyTruthy (node.attributes.find? "change_actions") = true →
      ∀ tgt, Q ⟨node.id, tgt, "attribute_reference"⟩) :
    ∀ e ∈ (_implicit_step s node).graph.edges, Q e := by
  unfold _implicit_step
  split
  · next hT =>
      split
      all_goals first
        | exact scan_edgesP h (hnew hT)
        | exact h
  · exact h

theorem process_edgesP {Q : Edge → Prop} {st : TFState} {r : TFResource}
    (h : ∀ e ∈ st.graph.edges, Q e)
    (hnew : ∀ tgt, Q ⟨tfNodeId r, tgt, "depends_on"⟩) :
    ∀ e ∈ (_process_resource st r).graph.edges, Q e := by
  unfold _process_resource
  simp only []
  apply fold_dep_edgesP
  · intro e he
    exact h e (by simpa [ResourceGraph.add_node] using he)
  · exact hnew

/-- Where the final edges come from: explicit edges carry the
`depends_on` reason, and every other edge was emitted while scanning a
node whose `change_actions` list is non-empty. -/
def edgeProvenance (plan : TFPlan) (e : Edge) : Prop :=
  e.reason = "depends_on" ∨
    ∃ r' ∈ plan.resource_changes,
      r'.change_actions ≠ [] ∧ e.from_id = tfNodeId r'

theorem parse_plan_provenance (plan : TFPlan) :
    ∀ e ∈ (parse_plan plan).edges, edgeProvenance plan e := by
  unfold parse_plan parse_plan_state
  set st0 : TFState :=
    { graph := { nodes := [], edges := [], meta := tfInitMeta plan }
      cache := [] } with hst0
  set st1 := plan.resource_changes.foldl _process_resource st0 with hst1
  have h1 : ∀ e ∈ st1.graph.edges, e.reason = "depends_on" := by
    rw [hst1]
    refine foldlInv (P := fun s => ∀ e ∈ s.graph.edges, e.reason = "depends_on")
      (f := _process_resource) plan.resource_changes st0 ?_ ?_
    · intro e he; simp [hst0] at he
    · intro x r _ hx
      exact process_edgesP hx (fun tgt => rfl)
  have hN : st1.graph.nodes = plan.resource_changes.map mkTFNode := by
    rw [hst1, fold_process_nodes]
    simp [hst0]
  have main := foldlInv
    (P := fun s => (∀ e ∈ s.graph.edges, edgeProvenance plan e) ∧
      s.graph.nodes = st1.graph.nodes)
    (f := _implicit_step) st1.graph.nodes st1
    ⟨fun e he => Or.inl (h1 e he), rfl⟩
    ?_
  · exact main.1
  · intro x node hmem hx
    obtain ⟨hxE, hxn⟩ := hx
    refine ⟨implicit_step_edgesP hxE ?_, by rw [implicit_step_nodes]; exact hxn⟩
    intro hT tgt
    rw [hN] at hmem
    rw [List.mem_map] at hmem
    obtain ⟨r', hr', hnode⟩ := hmem
    subst hnode
    rw [mkTFNode_actions_truthy] at hT
    refine Or.inr ⟨r', hr', ?_, rfl⟩
    intro hempty
    rw [hempty] at hT
    simp at hT

end Terraform

/-! ## Structural lemmas about the Kubernetes parser -/

namespace Kubernetes

def idsOf (N : List Node) : List String := N.map (·.id)

theorem cacheGetNode_mem {cache : List (String × Node)} {k : String} {n : Node}
    (h : cacheGetNode cache k = some n) : (k, n) ∈ cache := by
  induction cache with
  | nil => simp [cacheGetNode] at h
  | cons kv rest ih =>
      obtain ⟨k', v'⟩ := kv
      by_cases hk : k' = k
      · subst hk
        simp [cacheGetNode] at h
        simp [h]
      · simp [cacheGetNode, hk] at h
        exact List.mem_cons_of_mem _ (ih h)

/-- State invariant during the three inference passes: the node list and
cache are those built during node creation, and every edge so far has
both endpoints among the node ids. -/
def PassInv (N : List Node) (C : List (String × Node)) (st : KState) : Prop :=
  st.graph.nodes = N ∧ st.cache = C ∧
    ∀ e ∈ st.graph.edges, e.from_id ∈ idsOf N ∧ e.to_id ∈ idsOf N

theorem addEdge_passInv {N : List Node} {C : List (String × Node)}
    {st : KState} {e : Edge} (h : PassInv N C st)
    (ha : e.from_id ∈ idsOf N) (hb : e.to_id ∈ idsOf N) :
    PassInv N C { st with graph := st.graph.add_edge e } := by
  obtain ⟨h1, h2, h3⟩ := h
  refine ⟨by simp [ResourceGraph.add_edge, h1], by simp [h2], ?_⟩
  intro e' he'
  simp [ResourceGraph.add_edge] at he'
  rcases he' with he' | he'
  · exact h3 e' he'
  · subst he'; exact ⟨ha, hb⟩

theorem add_config_passInv {N : List Node} {C : List (String × Node)}
    {st : KState} {workload : Node} {cn ct rsn : String}
    (h : PassInv N C st) (hC : ∀ kv ∈ C, kv.2.id ∈ idsOf N)
    (hw : workload.id ∈ idsOf N) :
    PassInv N C (_add_config_reference st workload cn ct rsn) := by
  unfold _add_config_reference
  simp only []
  split
  · next cfg hcg =>
      refine addEdge_passInv h hw ?_
      rw [h.2.1] at hcg
      exact hC _ (cacheGetNode_mem hcg)
  · exact h

theorem addIfNamed_passInv {N : List Node} {C : List (String × Node)}
    {st : KState} {workload : Node} {ref : KVal} {ct rsn : String}
    (h : PassInv N C st) (hC : ∀ kv ∈ C, kv.2.id ∈ idsOf N)
    (hw : workload.id ∈ idsOf N) :
    PassInv N C (addIfNamed st workload ref ct rsn) := by
  unfold addIfNamed
  split
  · split
    · exact add_config_passInv h hC hw
    · exact h
  · exact h

theorem selectors_passInv {N : List Node} {C : List (String × Node)}
    {st : KState} (h : PassInv N C st) :
    PassInv N C (_infer_service_selectors st) := by
  unfold _infer_service_selectors
  simp only []
  refine foldlInv (P := fun s => PassInv N C s) _ _ h ?_
  intro x service hsvc hx
  have hsid : service.id ∈ idsOf N := by
    have := List.mem_of_mem_filter hsvc
    rw [h.1] at this
    exact List.mem_map_of_mem _ this
  split
  · split
    · refine foldlInv (P := fun s => PassInv N C s) _ _ hx ?_
      intro y workload hw hy
      have hwid : workload.id ∈ idsOf N := by
        have := List.mem_of_mem_filter hw
        rw [hx.1] at this
        exact List.mem_map_of_mem _ this
      exact addEdge_passInv hy hsid hwid
    · exact hx
  · exact hx

theorem ingress_passInv {N : List Node} {C : List (String × Node)}
    {st : KState} (h : PassInv N C st)
    (hC : ∀ kv ∈ C, kv.2.id ∈ idsOf N) :
    PassInv N C (_infer_ingress_backends st) := by
  unfold _infer_ingress_backends
  simp only []
  refine foldlInv (P := fun s => PassInv N C s) _ _ h ?_
  intro x ingress hing hx
  have hiid : ingress.id ∈ idsOf N := by
    have := List.mem_of_mem_filter hing
    rw [h.1] at this
    exact List.mem_map_of_mem _ this
  refine foldlInv (P := fun s => PassInv N C s) _ _ hx ?_
  intro y rule _ hy
  refine foldlInv (P := fun s => PassInv N C s) _ _ hy ?_
  intro z path _ hz
  split
  · next sname =>
      split
      · split
        · next service_node hfs =>
            refine addEdge_passInv hz hiid ?_
            unfold _find_service at hfs
            rw [hz.2.1] at hfs
            exact hC _ (cacheGetNode_mem hfs)
        · exact hz
      · exact hz
  · exact hz

theorem findcfg_passInv {N : List Node} {C : List (String × Node)}
    {st : KState} {workload : Node} (h : PassInv N C st)
    (hC : ∀ kv ∈ C, kv.2.id ∈ idsOf N) (hw : workload.id ∈ idsOf N) :
    PassInv N C (_find_config_references_in_workload st workload) := by
  unfold _find_config_references_in_workload
  simp only []
  refine foldlInv (P := fun s => PassInv N C s) _ _ ?_ ?_
  · refine foldlInv (P := fun s => PassInv N C s) _ _ h ?_
    intro x container _ hx
    refine foldlInv (P := fun s => PassInv N C s) _ _ ?_ ?_
    · refine foldlInv (P := fun s => PassInv N C s) _ _ hx ?_
      intro y env_from _ hy
      exact addIfNamed_passInv (addIfNamed_passInv hy hC hw) hC hw
    · intro y env_var _ hy
      exact addIfNamed_passInv (addIfNamed_passInv hy hC hw) hC hw
  · intro y volume _ hy
    exact addIfNamed_passInv (addIfNamed_passInv hy hC hw) hC hw

theorem config_passInv {N : List Node} {C : List (String × Node)}
    {st : KState} (h : PassInv N C st)
    (hC : ∀ kv ∈ C, kv.2.id ∈ idsOf N) :
    PassInv N C (_infer_config_references st) := by
  unfold _infer_config_references
  simp only []
  refine foldlInv (P := fun s => PassInv N C s) _ _ h ?_
  intro x workload hmem hx
  have hw : workload.id ∈ idsOf N := by
    rcases List.mem_append.1 hmem with hm | hm
      <;> · have := List.mem_of_mem_filter hm
            rw [h.1] at this
            exact List.mem_map_of_mem _ this
  exact findcfg_passInv hx hC hw

theorem infer_passInv {N : List Node} {C : List (String × Node)}
    {st : KState} (h : PassInv N C st)
    (hC : ∀ kv ∈ C, kv.2.id ∈ idsOf N) :
    PassInv N C (_infer_relationships st) :=
  config_passInv (ingress_passInv (selectors_passInv h) hC) hC

end Kubernetes

namespace Kubernetes

/-- Invariant during node creation: edges well-formed (vacuous — none
are created yet) and every cached node is in the graph. -/
def KInv (st : KState) : Prop :=
  (∀ e ∈ st.graph.edges, edgeWellFormed st.graph e) ∧
    ∀ kv ∈ st.cache, kv.2.id ∈ st.graph.nodeIds

theorem process_resource_kinv {st : KState} {doc : KVal} {path : String}
    (h : KInv st) : KInv (_process_resource st doc path) := by
  obtain ⟨hE, hC⟩ := h
  unfold _process_resource
  split
  · split
    · split
      · exact ⟨hE, hC⟩
      · constructor
        · intro e he
          have he' : e ∈ st.graph.edges := by
            simpa [ResourceGraph.add_node] using he
          obtain ⟨h1, h2⟩ := hE e he'
          constructor
          · simp [ResourceGraph.nodeIds, ResourceGraph.add_node]
            left
            simpa [ResourceGraph.nodeIds] using h1
          · simp [ResourceGraph.nodeIds, ResourceGraph.add_node]
            left
            simpa [ResourceGraph.nodeIds] using h2
        · intro kv hkv
          simp only [List.mem_cons] at hkv
          rcases hkv with hkv | hkv | hkv
          · rw [hkv]
            simp [ResourceGraph.nodeIds, ResourceGraph.add_node]
          · rw [hkv]
            simp [ResourceGraph.nodeIds, ResourceGraph.add_node]
          · have := hC kv hkv
            simp [ResourceGraph.nodeIds, ResourceGraph.add_node]
            left
            simpa [ResourceGraph.nodeIds] using this
    · exact ⟨hE, hC⟩
  · exact ⟨hE, hC⟩

theorem parse_file_kinv {st : KState} {file : String × List KVal}
    (h : KInv st) : KInv (_parse_file st file) := by
  unfold _parse_file
  refine foldlInv (P := fun s => KInv s) _ _ h ?_
  intro x doc _ hx
  split
  · split
    · exact process_resource_kinv hx
    · exact hx
  · exact hx

theorem parse_files_state_kinv (files : List (String × List KVal)) :
    KInv (files.foldl _parse_file
      { graph := { nodes := [], edges := [], meta := k8sInitMeta files }
        cache := [] }) := by
  refine foldlInv (P := fun s => KInv s) _ _ ?_ ?_
  · exact ⟨by intro e he; simp at he, by intro kv hkv; simp at hkv⟩
  · intro x file _ hx
    exact parse_file_kinv hx

/-- No dangling edges in a Kubernetes parse: every edge of the returned
graph has both endpoints among its node ids. -/
theorem parse_files_wf (files : List (String × List KVal)) :
    ∀ e ∈ (parse_files files).edges, edgeWellFormed (parse_files files) e := by
  unfold parse_files parse_files_state
  set st1 := files.foldl _parse_file
    { graph := { nodes := [], edges := [], meta := k8sInitMeta files }
      cache := [] } with hst1
  have hk : KInv st1 := parse_files_state_kinv files
  have hstart : PassInv st1.graph.nodes st1.cache st1 := by
    refine ⟨rfl, rfl, ?_⟩
    intro e he
    exact hk.1 e he
  have hC : ∀ kv ∈ st1.cache, kv.2.id ∈ idsOf st1.graph.nodes := hk.2
  have hfinal := infer_passInv hstart hC
  intro e he
  obtain ⟨hn, _, hEdges⟩ := hfinal
  have := hEdges e he
  rw [edgeWellFormed, ResourceGraph.nodeIds, hn]
  exact this

/-- The `(lowercased kind, namespace, name)` identity under which
`_process_resource` builds a node, when it builds one (proof-side mirror
of the guards of `_process_resource`). -/
def docIdentity (doc : KVal) : Option (String × String × String) :=
  match doc with
  | .d obj =>
    match obj.find? "kind", obj.find? "metadata" with
    | some (.s kindRaw), some (.d metadata) =>
        if kindRaw.data.isEmpty || !(KVal.d metadata).truthy then none
        else some (lowerStr kindRaw,
          (KVal.d metadata).strD "namespace" "default",
          (KVal.d metadata).strD "name" "unknown")
    | _, _ => none
  | _ => none

/-- The node id `f"k8s:{kind}:{namespace}/{name}"` of an identity. -/
def k8sIdOf (tr : String × String × String) : String :=
  "k8s:" ++ tr.1 ++ ":" ++ tr.2.1 ++ "/" ++ tr.2.2

theorem process_resource_ids (st : KState) (doc : KVal) (path : String) :
    (_process_resource st doc path).graph.nodeIds
      = st.graph.nodeIds ++ ((docIdentity doc).map k8sIdOf).toList := by
  unfold _process_resource docIdentity
  split
  · next obj =>
      cases hk : obj.find? "kind" with
      | none => simp [hk]
      | some kv =>
          cases hm : obj.find? "metadata" with
          | none => cases kv <;> simp [hk, hm]
          | some mv =>
              cases kv <;> cases mv <;>
                first
                  | (next kindRaw metadata =>
                      simp only [hk, hm]
                      split
                      · next hguard => simp [hguard]
                      · next hguard =>
                          simp [hguard, ResourceGraph.nodeIds,
                            ResourceGraph.add_node, k8sIdOf])
                  | simp [hk, hm]
  · simp

end Kubernetes

namespace Kubernetes

theorem parse_file_ids :
    ∀ (docs : List KVal) (st : KState) (path : String),
      (_parse_file st (path, docs)).graph.nodeIds
        = st.graph.nodeIds
          ++ docs.filterMap (fun doc => (docIdentity doc).map k8sIdOf)
  | [], st, path => by simp [_parse_file]
  | doc :: rest, st, path => by
      have hstep : _parse_file st (path, doc :: rest)
          = _parse_file
              (match doc with
                | .d _ => if doc.truthy then _process_resource st doc path else st
                | _ => st) (path, rest) := rfl
      rw [hstep, parse_file_ids rest]
      cases doc with
      | d obj =>
          by_cases htr : (KVal.d obj).truthy = true
          · simp only [htr, if_true]
            cases hid : docIdentity (KVal.d obj) with
            | none =>
                rw [process_resource_ids, hid]
                simp [List.filterMap_cons, hid]
            | some tr =>
                rw [process_resource_ids, hid]
                simp [List.filterMap_cons, hid]
          · have hobj : obj = .nil := by
              cases obj with
              | nil => rfl
              | cons k v rest' => simp [KVal.truthy] at htr
            subst hobj
            have hid : docIdentity (KVal.d .nil) = none := by
              simp [docIdentity, KObj.find?]
            simp [htr, List.filterMap_cons, hid]
      | s v => simp [List.filterMap_cons, docIdentity]
      | b v => simp [List.filterMap_cons, docIdentity]
      | i v => simp [List.filterMap_cons, docIdentity]
      | null => simp [List.filterMap_cons, docIdentity]
      | l a => simp [List.filterMap_cons, docIdentity]

theorem parse_files_nodeIds (files : List (String × List KVal)) :
    (parse_files files).nodeIds
      = (files.foldl _parse_file
          { graph := { nodes := [], edges := [], meta := k8sInitMeta files }
            cache := [] }).graph.nodeIds := by
  unfold parse_files parse_files_state
  set st1 := files.foldl _parse_file
    { graph := { nodes := [], edges := [], meta := k8sInitMeta files }
      cache := [] } with hst1
  have hk : KInv st1 := parse_files_state_kinv files
  have hfinal := infer_passInv (N := st1.graph.nodes) (C := st1.cache)
    ⟨rfl, rfl, fun e he => hk.1 e he⟩ hk.2
  rw [ResourceGraph.nodeIds, ResourceGraph.nodeIds, hfinal.1]

theorem k8sIdOf_data (tr : String × String × String) :
    (k8sIdOf tr).data
      = 'k' :: '8' :: 's' :: ':'
          :: (tr.1.data ++ ':' :: (tr.2.1.data ++ '/' :: tr.2.2.data)) := by
  simp [k8sIdOf, String.data_append]

theorem k8sIdOf_inj {a b : String × String × String}
    (ha1 : ':' ∉ a.1.data) (hb1 : ':' ∉ b.1.data)
    (ha2 : '/' ∉ a.2.1.data) (hb2 : '/' ∉ b.2.1.data)
    (h : k8sIdOf a = k8sIdOf b) : a = b := by
  have hd := congrArg String.data h
  rw [k8sIdOf_data, k8sIdOf_data] at hd
  simp only [List.cons.injEq, true_and] at hd
  obtain ⟨hk, hrest⟩ := sep_split _ _ _ _ ha1 hb1 hd
  obtain ⟨hns, hname⟩ := sep_split _ _ _ _ ha2 hb2 hrest
  obtain ⟨a1, a2, a3⟩ := a
  obtain ⟨b1, b2, b3⟩ := b
  simp only [] at hk hns hname
  rw [String.ext hk, String.ext hns, String.ext hname]

/-- Node ids accumulated over a whole list of files: one contribution
per node-yielding document, in file order. -/
theorem fold_files_ids :
    ∀ (files : List (String × List KVal)) (st : KState),
      (files.foldl _parse_file st).graph.nodeIds
        = st.graph.nodeIds
          ++ (files.map (·.2)).flatten.filterMap
              (fun doc => (docIdentity doc).map k8sIdOf)
  | [], st => by simp
  | f :: rest, st => by
      obtain ⟨path, docs⟩ := f
      rw [List.foldl_cons, fold_files_ids rest, parse_file_ids docs st path]
      simp [List.filterMap_append, List.append_assoc]

/-- Uniqueness of Kubernetes node ids for a parse over any list of files,
under pairwise-distinct `(lowercased kind, namespace, name)` identities
of the node-yielding documents across all files, with colon-free lowered
kinds and slash-free namespaces. -/
theorem k8s_ids_nodup (files : List (String × List KVal))
    (hsep : ∀ tr ∈ (files.map (·.2)).flatten.filterMap docIdentity,
      ':' ∉ tr.1.data ∧ '/' ∉ tr.2.1.data)
    (hnodup : ((files.map (·.2)).flatten.filterMap docIdentity).Nodup) :
    (parse_files files).nodeIds.Nodup := by
  have hids : (parse_files files).nodeIds
      = ((files.map (·.2)).flatten.filterMap docIdentity).map k8sIdOf := by
    rw [parse_files_nodeIds, fold_files_ids, List.map_filterMap]
    simp [ResourceGraph.nodeIds]
  rw [hids]
  refine map_nodup_of_map_nodup (g := id) (by rw [List.map_id]; exact hnodup) ?_
  intro a ha b hb hf
  exact k8sIdOf_inj (hsep a ha).1 (hsep b hb).1 (hsep a ha).2 (hsep b hb).2 hf

end Kubernetes

/-! ## Structural lemmas about the Helm parser -/

namespace Helm

theorem tagHelmNode_id (chart_path : String) (n : Node) :
    (tagHelmNode chart_path n).id = n.id := rfl

theorem fold_tag_nodes (chart_path : String) :
    ∀ (ns : List Node) (g : ResourceGraph),
      (ns.foldl (fun acc n => acc.add_node (tagHelmNode chart_path n)) g).nodes
        = g.nodes ++ ns.map (tagHelmNode chart_path)
  | [], g => by simp
  | n :: rest, g => by
      rw [List.foldl_cons, fold_tag_nodes chart_path rest]
      simp [ResourceGraph.add_node]

theorem fold_tag_edges (chart_path : String) :
    ∀ (ns : List Node) (g : ResourceGraph),
      (ns.foldl (fun acc n => acc.add_node (tagHelmNode chart_path n)) g).edges
        = g.edges
  | [], _ => rfl
  | n :: rest, g => by
      rw [List.foldl_cons, fold_tag_edges chart_path rest]
      rfl

theorem fold_edge_edges :
    ∀ (es : List Edge) (g : ResourceGraph),
      (es.foldl (fun acc e => acc.add_edge e) g).edges = g.edges ++ es
  | [], g => by simp
  | e :: rest, g => by
      rw [List.foldl_cons, fold_edge_edges rest]
      simp [ResourceGraph.add_edge]

theorem fold_edge_nodes :
    ∀ (es : List Edge) (g : ResourceGraph),
      (es.foldl (fun acc e => acc.add_edge e) g).nodes = g.nodes
  | [], _ => rfl
  | e :: rest, g => by
      rw [List.foldl_cons, fold_edge_nodes rest]
      rfl

theorem fold_depnode_nodes (cd : KObj) :
    ∀ (deps : List KVal) (g : ResourceGraph),
      (deps.foldl (fun acc dep => acc.add_node (depNode cd dep)) g).nodes
        = g.nodes ++ deps.map (depNode cd)
  | [], g => by simp
  | dep :: rest, g => by
      rw [List.foldl_cons, fold_depnode_nodes cd rest]
      simp [ResourceGraph.add_node]

theorem fold_depnode_edges (cd : KObj) :
    ∀ (deps : List KVal) (g : ResourceGraph),
      (deps.foldl (fun acc dep => acc.add_node (depNode cd dep)) g).edges
        = g.edges
  | [], _ => rfl
  | dep :: rest, g => by
      rw [List.foldl_cons, fold_depnode_edges cd rest]
      rfl

theorem extract_meta_edges (g : ResourceGraph) (chartYaml : Option KVal) :
    (_extract_helm_metadata g chartYaml).edges = g.edges := by
  unfold _extract_helm_metadata
  split
  · rw [fold_depnode_edges]
  · rfl
  · rfl

theorem extract_meta_nodes (g : ResourceGraph) (chartYaml : Option KVal) :
    ∃ extra, (_extract_helm_metadata g chartYaml).nodes = g.nodes ++ extra := by
  unfold _extract_helm_metadata
  split
  · exact ⟨_, by rw [fold_depnode_nodes]⟩
  · exact ⟨[], by simp⟩
  · exact ⟨[], by simp⟩

theorem merge_nodes (g : ResourceGraph) (chart_path temp_path : String)
    (docs : List KVal) :
    (_parse_rendered_manifests g chart_path temp_path docs).nodes
      = g.nodes ++ (Kubernetes.parse_files [(temp_path, docs)]).nodes.map
          (tagHelmNode chart_path) := by
  unfold _parse_rendered_manifests
  rw [fold_edge_nodes, fold_tag_nodes]

theorem merge_edges (g : ResourceGraph) (chart_path temp_path : String)
    (docs : List KVal) :
    (_parse_rendered_manifests g chart_path temp_path docs).edges
      = g.edges ++ (Kubernetes.parse_files [(temp_path, docs)]).edges := by
  unfold _parse_rendered_manifests
  rw [fold_edge_edges, fold_tag_edges]

/-- No dangling edges in a Helm parse: all edges come from the merged
Kubernetes graph, whose endpoint ids survive the provenance tagging, and
the dependency nodes appended afterwards only grow the node list. -/
theorem parse_chart_wf (chart_path : String) (values_files : List String)
    (ns release_name : String) (rendered_manifests : Option String)
    (rendered_docs : List KVal) (temp_path : String)
    (chartYaml : Option KVal) :
    ∀ e ∈ (parse_chart chart_path values_files ns release_name
        rendered_manifests rendered_docs temp_path chartYaml).edges,
      edgeWellFormed (parse_chart chart_path values_files ns release_name
        rendered_manifests rendered_docs temp_path chartYaml) e := by
  unfold parse_chart
  match rendered_manifests with
  | none => intro e he; simp at he
  | some txt =>
      by_cases hempty : txt.data.isEmpty = true
      · simp only [hempty, if_true]
        intro e he
        simp at he
      · simp only [hempty, Bool.false_eq_true, if_false]
        intro e he
        have hedges := extract_meta_edges
          (_parse_rendered_manifests
            { nodes := [], edges := []
              meta := helmInitMeta chart_path values_files ns release_name }
            chart_path temp_path rendered_docs) chartYaml
        rw [hedges, merge_edges] at he
        simp only [List.nil_append] at he
        have hwf := Kubernetes.parse_files_wf [(temp_path, rendered_docs)] e he
        obtain ⟨extra, hnodes⟩ := extract_meta_nodes
          (_parse_rendered_manifests
            { nodes := [], edges := []
              meta := helmInitMeta chart_path values_files ns release_name }
            chart_path temp_path rendered_docs) chartYaml
        have hmapid : ∀ nid, nid ∈ (Kubernetes.parse_files
            [(temp_path, rendered_docs)]).nodeIds →
            nid ∈ (ResourceGraph.nodeIds
              (_extract_helm_metadata
                (_parse_rendered_manifests
                  { nodes := [], edges := []
                    meta := helmInitMeta chart_path values_files ns release_name }
                  chart_path temp_path rendered_docs) chartYaml)) := by
          intro nid hmem
          rw [ResourceGraph.nodeIds, hnodes, merge_nodes]
          simp only [List.nil_append, List.map_append, List.map_map]
          apply List.mem_append_left
          rw [ResourceGraph.nodeIds] at hmem
          rw [List.mem_map] at hmem ⊢
          obtain ⟨n, hn, hid⟩ := hmem
          exact ⟨n, hn, hid⟩
        exact ⟨hmapid _ hwf.1, hmapid _ hwf.2⟩

end Helm

/-! ## Character-level facts about `splitDots` (for the candidate
classification clauses) -/

theorem splitDotsAux_ne_nil : ∀ (l acc : List Char), splitDotsAux l acc ≠ []
  | [], acc => by simp [splitDotsAux]
  | c :: rest, acc => by
      by_cases hc : c = '.'
      · simp [splitDotsAux, hc]
      · simp only [splitDotsAux, hc, if_false]
        exact splitDotsAux_ne_nil rest (c :: acc)

theorem splitDots_ne_nil (s : String) : splitDots s ≠ [] :=
  splitDotsAux_ne_nil s.data []

theorem headD_mem_splitDots (s : String) :
    (splitDots s).headD "" ∈ splitDots s := by
  cases h : splitDots s with
  | nil => exact absurd h (splitDots_ne_nil s)
  | cons a l => simp

/-- Every character of every segment of `splitDots` comes from the input
(or the accumulator). -/
theorem splitDotsAux_chars :
    ∀ (l acc : List Char) (part : String), part ∈ splitDotsAux l acc →
      ∀ c ∈ part.data, c ∈ l ∨ c ∈ acc
  | [], acc, part, hp, c, hc => by
      simp [splitDotsAux] at hp
      subst hp
      right
      simpa using hc
  | x :: rest, acc, part, hp, c, hc => by
      by_cases hx : x = '.'
      · simp only [splitDotsAux, hx, if_true, List.mem_cons] at hp
        rcases hp with hp | hp
        · subst hp
          right
          simpa using hc
        · rcases splitDotsAux_chars rest [] part hp c hc with h | h
          · exact Or.inl (List.mem_cons_of_mem _ h)
          · simp at h
      · simp only [splitDotsAux, hx, if_false] at hp
        rcases splitDotsAux_chars rest (x :: acc) part hp c hc with h | h
        · exact Or.inl (List.mem_cons_of_mem _ h)
        · simp only [List.mem_cons] at h
          rcases h with h | h
          · subst h
            exact Or.inl (List.mem_cons_self _ _)
          · exact Or.inr h

theorem head_chars_mem (s : String) :
    ∀ c ∈ ((splitDots s).headD "").data, c ∈ s.data := by
  intro c hc
  rcases splitDotsAux_chars s.data [] _ (headD_mem_splitDots s) c hc with h | h
  · exact h
  · simp at h

/-- A non-digit character in the head segment refutes `str.isdigit()` and
emptiness of the whole string. -/
theorem pyIsDigit_false_of_head_char {s : String} {c : Char}
    (hc : c ∈ ((splitDots s).headD "").data) (hd : c.isDigit = false) :
    pyIsDigit s = false ∧ s.data.isEmpty = false := by
  have hmem : c ∈ s.data := head_chars_mem s c hc
  constructor
  · rw [pyIsDigit]
    cases hall : s.data.all Char.isDigit with
    | false => simp
    | true =>
        rw [List.all_eq_true] at hall
        rw [hall c hmem] at hd
        simp at hd
  · cases hdata : s.data with
    | nil => rw [hdata] at hmem; simp at hmem
    | cons a l => simp

/-! ## Concrete inputs exercised by the claim theorems -/

/-- `aws_vpc.main`, no references. -/
def exVpc : Terraform.TFResource :=
  { address := "aws_vpc.main", type := "aws_vpc", name := "main"
    change_actions := ["create"] }

/-- `aws_subnet.public`, whose post-change attributes embed
`${aws_vpc.main.id}`. -/
def exSubnet : Terraform.TFResource :=
  { address := "aws_subnet.public"
    type := "aws_subnet"
    name := "public"
    change_actions := ["create"]
    change_after := kdict
      [ ("vpc_id", .s "$\x7baws_vpc.main.id\x7d")
      , ("cidr_block", .s "10.0.1.0/24") ] }

def scenarioPlan : Terraform.TFPlan := { resource_changes := [exVpc, exSubnet] }

/-- A subnet inside `module.network`, addressed as in a real plan. -/
def modSubnet : Terraform.TFResource :=
  { address := "module.network.aws_subnet.public"
    type := "aws_subnet"
    name := "public"
    module_address := "module.network"
    change_actions := ["create"] }

/-- An instance in the same module whose attributes reference the bare
address `aws_subnet.public`. -/
def modInst : Terraform.TFResource :=
  { address := "module.network.aws_instance.web"
    type := "aws_instance"
    name := "web"
    module_address := "module.network"
    change_actions := ["create"]
    change_after := kdict [("subnet_id", .s "$\x7baws_subnet.public.id\x7d")] }

def c9Plan : Terraform.TFPlan := { resource_changes := [modSubnet, modInst] }

/-- Depends on `aws_vpc.b`, which appears later in the list. -/
def depA : Terraform.TFResource :=
  { address := "aws_instance.a", type := "aws_instance", name := "a"
    change_actions := ["create"], depends_on := ["aws_vpc.b"] }

def depB : Terraform.TFResource :=
  { address := "aws_vpc.b", type := "aws_vpc", name := "b"
    change_actions := ["create"] }

def c4PlanLate : Terraform.TFPlan := { resource_changes := [depA, depB] }

def c4PlanEarly : Terraform.TFPlan := { resource_changes := [depB, depA] }

/-- Two resource changes with the same address. -/
def dupPlan : Terraform.TFPlan := { resource_changes := [exVpc, exVpc] }

/-- A resource whose `change_actions` list is empty but whose
`change_after` embeds a reference that would resolve in the cache. -/
def c10Inactive : Terraform.TFResource :=
  { address := "aws_subnet.idle", type := "aws_subnet", name := "idle"
    change_actions := []
    change_after := kdict [("vpc_id", .s "$\x7baws_vpc.main.id\x7d")] }

def c10Plan : Terraform.TFPlan :=
  { resource_changes := [exVpc, exSubnet, c10Inactive] }

/-- A `Service` selecting `app: web`. -/
def svcSelDoc : KVal :=
  kdict
    [ ("kind", .s "Service")
    , ("metadata", kdict [("name", .s "web-svc"), ("namespace", .s "default")])
    , ("spec", kdict [("selector", kdict [("app", .s "web")])]) ]

/-- A `Deployment` whose only `app: web` labels sit in the pod template
(`spec.template.metadata.labels`); its own `metadata.labels` is absent. -/
def depTemplateDoc : KVal :=
  kdict
    [ ("kind", .s "Deployment")
    , ("metadata", kdict [("name", .s "web-dep"), ("namespace", .s "default")])
    , ("spec", kdict
        [ ("template", kdict
            [ ("metadata", kdict [("labels", kdict [("app", .s "web")])]) ]) ]) ]

/-- The same `Deployment` carrying `app: web` in its own
`metadata.labels` as well. -/
def depLabeledDoc : KVal :=
  kdict
    [ ("kind", .s "Deployment")
    , ("metadata", kdict
        [ ("name", .s "web-dep"), ("namespace", .s "default")
        , ("labels", kdict [("app", .s "web")]) ])
    , ("spec", kdict
        [ ("template", kdict
            [ ("metadata", kdict [("labels", kdict [("app", .s "web")])]) ]) ]) ]

/-- A selector-less `Service` named `web`. -/
def plainSvcDoc : KVal :=
  kdict
    [ ("kind", .s "Service")
    , ("metadata", kdict [("name", .s "web"), ("namespace", .s "default")])
    , ("spec", kdict []) ]

/-- An `Ingress` with two HTTP paths whose backends name the same
service `web`. -/
def ingressTwoPathsDoc : KVal :=
  kdict
    [ ("kind", .s "Ingress")
    , ("metadata", kdict [("name", .s "ing"), ("namespace", .s "default")])
    , ("spec", kdict [("rules", klist
        [ kdict [("http", kdict [("paths", klist
            [ kdict [("backend", kdict [("service", kdict [("name", .s "web")])])]
            , kdict [("backend", kdict [("service", kdict [("name", .s "web")])])]
            ])])] ])]) ]

/-- A readable chart descriptor with one declared dependency. -/
def exChartYaml : KVal :=
  kdict
    [ ("name", .s "web-app"), ("version", .s "1.0.0")
    , ("description", .s "demo chart")
    , ("dependencies", klist
        [ kdict [("name", .s "redis"), ("version", .s "17.0.0")] ]) ]

/-! ## Claims -/

/-- C1 (counterexample): parsing a Service `web` together with an Ingress
whose two HTTP paths both backend that service produces two edges with
the identical triple `(ingress, service, ingress_backend)` — the
Kubernetes ingress pass appends without deduplicating, refuting the
claimed graph-wide invariant. -/
theorem C1_counterexample :
    ((Kubernetes.parse_files
        [("m.yaml", [plainSvcDoc, ingressTwoPathsDoc])]).edges.map Edge.triple)
      = [("k8s:ingress:default/ing", "k8s:service:default/web", "ingress_backend"),
         ("k8s:ingress:default/ing", "k8s:service:default/web", "ingress_backend")]
    ∧ ¬ ((Kubernetes.parse_files
        [("m.yaml", [plainSvcDoc, ingressTwoPathsDoc])]).edges.map
          Edge.triple).Nodup :=
  ⟨by decide, by decide⟩

/-- C1 (amended): only the Terraform parser deduplicates:
`_add_dependency_edge` checks for an existing `(from_id, to_id, reason)`
triple before appending, so no two edges of any Terraform parse share
their triple (hence re-running its inference adds no duplicates); the
Kubernetes passes append unconditionally and can emit duplicates, as the
counterexample shows. -/
theorem C1_amended (plan : Terraform.TFPlan) :
    ((Terraform.parse_plan plan).edges.map Edge.triple).Nodup :=
  Terraform.parse_plan_triples plan

/-- C2 (counterexample): renderer yields no output, descriptor readable;
`parse_chart` does return a graph with zero nodes, but its meta does not
contain `chart_metadata` — the early return skips
`_extract_helm_metadata`, refuting the claim. -/
theorem C2_counterexample :
    (Helm.parse_chart "charts/web-app" [] "default" "test-release"
        none [] "tmp.yaml" (some exChartYaml)).nodes = []
    ∧ (Helm.parse_chart "charts/web-app" [] "default" "test-release"
        none [] "tmp.yaml" (some exChartYaml)).meta.find? "chart_metadata"
      = none :=
  ⟨rfl, rfl⟩

/-- C2 (amended): when the renderer yields no output, `parse_chart`
returns the freshly reset graph — zero nodes, zero edges and only the
base run metadata; chart metadata is never read, even when the
descriptor is readable, because the early return precedes
`_extract_helm_metadata`. -/
theorem C2_amended (chart_path : String) (values_files : List String)
    (ns release_name : String) (docs : List KVal) (temp_path : String)
    (chartYaml : Option KVal) :
    Helm.parse_chart chart_path values_files ns release_name none docs
        temp_path chartYaml
      = { nodes := [], edges := []
          meta := Helm.helmInitMeta chart_path values_files ns release_name }
    ∧ (Helm.parse_chart chart_path values_files ns release_name none docs
        temp_path chartYaml).meta.find? "chart_metadata" = none := by
  refine ⟨rfl, ?_⟩
  show (Helm.helmInitMeta chart_path values_files ns
    release_name).find? "chart_metadata" = none
  simp [Helm.helmInitMeta, KObj.ofList, KObj.find?]

/-- C3 (counterexample): a Service with selector `app: web` and a
Deployment whose `app: web` labels live only in
`spec.template.metadata.labels` produce no edges at all — the selector
pass reads the Deployment's own `metadata.labels`, refuting the claimed
single `selector_match` edge. -/
theorem C3_counterexample :
    (Kubernetes.parse_files [("m.yaml", [svcSelDoc, depTemplateDoc])]).edges
      = [] := by decide

/-- C3 (amended): the selector pass matches the workload node's own
`metadata.labels`; with the Deployment carrying `app: web` there, exactly
one `selector_match` edge from the service to the deployment is
produced. -/
theorem C3_amended :
    (Kubernetes.parse_files [("m.yaml", [svcSelDoc, depLabeledDoc])]).edges
      = [⟨"k8s:service:default/web-svc", "k8s:deployment:default/web-dep",
          "selector_match"⟩] := by decide

/-- C4 (counterexample): `aws_instance.a` declares `depends_on
aws_vpc.b`, which appears later in the `resource_changes` list; the final
cache does hold `aws_vpc.b`, yet no edge is produced — `depends_on`
entries are resolved inline during node creation against the partially
populated cache, refuting the claim. -/
theorem C4_counterexample :
    Terraform.cacheGet (Terraform.parse_plan_state c4PlanLate).cache "aws_vpc.b"
      = some "tf:aws_vpc:aws_vpc.b"
    ∧ (Terraform.parse_plan c4PlanLate).edges = [] :=
  ⟨rfl, rfl⟩

/-- C4 (amended): explicit `depends_on` references are resolved during
node creation against the cache built so far, not after all nodes exist:
the edge is emitted when the target precedes the referencing resource in
the list and silently dropped when it follows it. -/
theorem C4_amended :
    (Terraform.parse_plan c4PlanEarly).edges
      = [⟨"tf:aws_instance:aws_instance.a", "tf:aws_vpc:aws_vpc.b",
          "depends_on"⟩]
    ∧ (Terraform.parse_plan c4PlanLate).edges = [] :=
  ⟨rfl, rfl⟩

/-- C5 (counterexample): `add_node` never validates, so duplicate keys
yield duplicate ids in both families — two Terraform resource changes
with the same address produce two nodes with the identical id
`tf:aws_vpc:aws_vpc.main`, and the same Service document appearing in
two files of one Kubernetes parse produces two nodes with the identical
id `k8s:service:default/web`, refuting the claimed uniqueness. -/
theorem C5_counterexample :
    (Terraform.parse_plan dupPlan).nodeIds
      = ["tf:aws_vpc:aws_vpc.main", "tf:aws_vpc:aws_vpc.main"]
    ∧ ¬ (Terraform.parse_plan dupPlan).nodeIds.Nodup
    ∧ (Kubernetes.parse_files
        [("a.yaml", [plainSvcDoc]), ("b.yaml", [plainSvcDoc])]).nodeIds
      = ["k8s:service:default/web", "k8s:service:default/web"]
    ∧ ¬ (Kubernetes.parse_files
        [("a.yaml", [plainSvcDoc]), ("b.yaml", [plainSvcDoc])]).nodeIds.Nodup :=
  ⟨by decide, by decide, by decide, by decide⟩

/-- C5 (amended): node ids are pairwise distinct once the inputs are
distinct under the id-forming key: for Terraform, when the resource
addresses are pairwise distinct and type strings contain no `:`;
for Kubernetes, over any list of input files, when the
`(lowercased kind, namespace, name)` identities of the node-yielding
documents across all files are pairwise distinct, with colon-free
lowered kinds and slash-free namespaces. Duplicate addresses or
identities — also across files, or via colliding separator tricks —
do yield duplicate ids, as the counterexample shows. -/
theorem C5_amended :
    (∀ plan : Terraform.TFPlan,
      (∀ r ∈ plan.resource_changes, ':' ∉ r.type.data) →
      (plan.resource_changes.map (·.address)).Nodup →
      (Terraform.parse_plan plan).nodeIds.Nodup)
    ∧ (∀ files : List (String × List KVal),
      (∀ tr ∈ (files.map (·.2)).flatten.filterMap Kubernetes.docIdentity,
        ':' ∉ tr.1.data ∧ '/' ∉ tr.2.1.data) →
      ((files.map (·.2)).flatten.filterMap Kubernetes.docIdentity).Nodup →
      (Kubernetes.parse_files files).nodeIds.Nodup) :=
  ⟨fun plan h1 h2 => Terraform.tf_ids_nodup plan h1 h2,
   fun files h1 h2 => Kubernetes.k8s_ids_nodup files h1 h2⟩

/-- C5 (witness): both halves of the amended claim applied to concrete
inputs — the Kubernetes one a parse spanning two files. -/
theorem C5_witness :
    (Terraform.parse_plan scenarioPlan).nodeIds.Nodup
    ∧ (Kubernetes.parse_files
        [("a.yaml", [svcSelDoc]), ("b.yaml", [depLabeledDoc])]).nodeIds.Nodup :=
  ⟨C5_amended.1 scenarioPlan (by decide) (by decide),
   C5_amended.2 [("a.yaml", [svcSelDoc]), ("b.yaml", [depLabeledDoc])]
     (by decide) (by decide)⟩

/-- C6: no dangling edges, for all three parse entry points — every edge
of a returned graph has both endpoints among that graph's node ids
(resolvers that cannot resolve a target emit no edge). -/
theorem C6_theorem :
    (∀ (plan : Terraform.TFPlan) (e : Edge),
      e ∈ (Terraform.parse_plan plan).edges →
      edgeWellFormed (Terraform.parse_plan plan) e)
    ∧ (∀ (files : List (String × List KVal)) (e : Edge),
      e ∈ (Kubernetes.parse_files files).edges →
      edgeWellFormed (Kubernetes.parse_files files) e)
    ∧ (∀ (chart_path : String) (values_files : List String)
        (ns release_name : String) (rendered : Option String)
        (docs : List KVal) (temp_path : String) (chartYaml : Option KVal)
        (e : Edge),
      e ∈ (Helm.parse_chart chart_path values_files ns release_name rendered
        docs temp_path chartYaml).edges →
      edgeWellFormed (Helm.parse_chart chart_path values_files ns release_name
        rendered docs temp_path chartYaml) e) :=
  ⟨fun plan e he => (Terraform.parse_plan_inv plan).1 e he,
   fun files e he => Kubernetes.parse_files_wf files e he,
   fun cp vf ns rn rendered docs tp cy e he =>
     Helm.parse_chart_wf cp vf ns rn rendered docs tp cy e he⟩

/-- C6 (witness): the theorem applied to one concrete edge of each
family's parse. -/
theorem C6_witness :
    edgeWellFormed (Terraform.parse_plan scenarioPlan)
      ⟨"tf:aws_subnet:aws_subnet.public", "tf:aws_vpc:aws_vpc.main",
        "attribute_reference"⟩
    ∧ edgeWellFormed
        (Kubernetes.parse_files [("m.yaml", [svcSelDoc, depLabeledDoc])])
        ⟨"k8s:service:default/web-svc", "k8s:deployment:default/web-dep",
          "selector_match"⟩
    ∧ edgeWellFormed
        (Helm.parse_chart "charts/web-app" [] "default" "rel" (some "manifests")
          [svcSelDoc, depLabeledDoc] "tmp.yaml" (some exChartYaml))
        ⟨"k8s:service:default/web-svc", "k8s:deployment:default/web-dep",
          "selector_match"⟩ :=
  ⟨C6_theorem.1 scenarioPlan _ (by decide),
   C6_theorem.2.1 [("m.yaml", [svcSelDoc, depLabeledDoc])] _ (by decide),
   C6_theorem.2.2 "charts/web-app" [] "default" "rel" (some "manifests")
     [svcSelDoc, depLabeledDoc] "tmp.yaml" (some exChartYaml) _ (by decide)⟩

/-- C9: in the two-resource module plan, the bare address
`aws_subnet.public` is not in the cache, yet `_find_target_node` resolves
it through the module-qualified spelling
`module.network.aws_subnet.public`, and the parse produces exactly one
`attribute_reference` edge from the instance to the subnet. -/
theorem C9_theorem :
    Terraform.cacheGet (Terraform.parse_plan_state c9Plan).cache
        "aws_subnet.public" = none
    ∧ Terraform._find_target_node (Terraform.parse_plan_state c9Plan)
        "tf:aws_instance:module.network.aws_instance.web" "aws_subnet.public"
      = some "tf:aws_subnet:module.network.aws_subnet.public"
    ∧ (Terraform.parse_plan c9Plan).edges
      = [⟨"tf:aws_instance:module.network.aws_instance.web",
          "tf:aws_subnet:module.network.aws_subnet.public",
          "attribute_reference"⟩] :=
  ⟨by decide, by decide, by decide⟩

/-- C10: a resource whose `change_actions` is empty (the modelled form of
"missing or empty": `resource.get('change', {}).get('actions', [])`
defaults to the empty list) is skipped by `_find_implicit_dependencies`,
so no `attribute_reference` edge leaves its node id — provided no other
resource shares that id, since edges only record ids. -/
theorem C10_theorem (plan : Terraform.TFPlan) (r : Terraform.TFResource)
    (hr : r ∈ plan.resource_changes)
    (hempty : r.change_actions = [])
    (hunique : ∀ r' ∈ plan.resource_changes,
      Terraform.tfNodeId r' = Terraform.tfNodeId r → r'.change_actions = [])
    (e : Edge) (he : e ∈ (Terraform.parse_plan plan).edges)
    (hreason : e.reason = "attribute_reference") :
    e.from_id ≠ Terraform.tfNodeId r := by
  intro hfrom
  rcases Terraform.parse_plan_provenance plan e he with h | ⟨r', hr', hact, hfrom'⟩
  · rw [hreason] at h
    exact absurd h (by decide)
  · rw [hfrom] at hfrom'
    exact hact (hunique r' hr' hfrom'.symm)

/-- C10 (witness): in the concrete plan, the only `attribute_reference`
edge leaves the active subnet, not the inactive resource
`aws_subnet.idle` whose `change_after` holds the same resolvable
reference. -/
theorem C10_witness :
    (Edge.mk "tf:aws_subnet:aws_subnet.public" "tf:aws_vpc:aws_vpc.main"
        "attribute_reference").from_id ≠ Terraform.tfNodeId c10Inactive :=
  C10_theorem c10Plan c10Inactive (by simp [c10Plan]) rfl (by decide) _
    (by decide) rfl

/-- C7 (counterexample): `1.2` is not rejected — `str.isdigit()` is false
for a string containing a dot, so the dotted numeric survives cleaning
and yields itself, refuting the claimed rejection of "entirely numeric"
candidates. -/
theorem C7_counterexample : clean_reference "1.2" = some "1.2" := rfl

/-- C7 (amended): candidate classification as the code implements it —
fewer than 2 dot-segments, a `true`/`false`/`null` head, or a string made
up solely of digits (`str.isdigit()`; a dotted numeric such as `1.2` is
NOT rejected) gives no reference; `module` heads keep the first 4
segments (none if fewer), `data` heads the first 3 (none if fewer),
`var`/`local` heads are discarded, and any other candidate keeps its
first 2 segments. -/
theorem C7_amended (s : String) :
    ((splitDots s).length < 2 → clean_reference s = none)
    ∧ ((splitDots s).headD "" ∈ ["true", "false", "null"] →
        clean_reference s = none)
    ∧ (pyIsDigit s = true → clean_reference s = none)
    ∧ ((splitDots s).headD "" = "module" →
        clean_reference s = if (splitDots s).length ≥ 4
          then some (joinDots ((splitDots s).take 4)) else none)
    ∧ ((splitDots s).headD "" = "data" →
        clean_reference s = if (splitDots s).length ≥ 3
          then some (joinDots ((splitDots s).take 3)) else none)
    ∧ ((splitDots s).headD "" ∈ ["var", "local"] → clean_reference s = none)
    ∧ (2 ≤ (splitDots s).length →
        (splitDots s).headD "" ∉
          ["true", "false", "null", "module", "data", "var", "local"] →
        pyIsDigit s = false →
        clean_reference s = some (joinDots ((splitDots s).take 2))) := by
  refine ⟨?_, ?_, ?_, ?_, ?_, ?_, ?_⟩
  · intro h
    cases h0 : (s.data.isEmpty || pyIsDigit s) <;>
      simp [clean_reference, h0, h]
  · intro h
    simp only [List.headD_eq_head?_getD] at h
    cases h0 : (s.data.isEmpty || pyIsDigit s) <;>
      simp [clean_reference, h0, h]
  · intro h
    simp [clean_reference, h]
  · intro h
    obtain ⟨hdig, hne⟩ := pyIsDigit_false_of_head_char (s := s) (c := 'm')
      (by rw [h]; decide) (by decide)
    simp only [List.headD_eq_head?_getD] at h
    by_cases hlen : (splitDots s).length < 2
    · have h4 : ¬ (splitDots s).length ≥ 4 := by omega
      simp [clean_reference, hdig, hne, hlen, h4]
    · simp [clean_reference, hdig, hne, hlen, h]
  · intro h
    obtain ⟨hdig, hne⟩ := pyIsDigit_false_of_head_char (s := s) (c := 'd')
      (by rw [h]; decide) (by decide)
    simp only [List.headD_eq_head?_getD] at h
    by_cases hlen : (splitDots s).length < 2
    · have h3 : ¬ (splitDots s).length ≥ 3 := by omega
      simp [clean_reference, hdig, hne, hlen, h3]
    · simp [clean_reference, hdig, hne, hlen, h]
  · intro h
    simp only [List.mem_cons, List.not_mem_nil, or_false, List.mem_singleton,
      List.headD_eq_head?_getD] at h
    cases h0 : (s.data.isEmpty || pyIsDigit s)
    · rcases h with h | h <;> simp [clean_reference, h0, h]
    · simp [clean_reference, h0]
  · intro hlen hmem hdig
    have hne : s.data.isEmpty = false := by
      cases hdata : s.data with
      | nil =>
          have hsplit : splitDots s = [""] := by
            rw [splitDots, hdata]
            rfl
          rw [hsplit] at hlen
          simp at hlen
      | cons a l => simp
    simp only [List.mem_cons, List.not_mem_nil, or_false, not_or,
      List.headD_eq_head?_getD] at hmem
    obtain ⟨ht, hf, hn, hm, hd2, hv, hl⟩ := hmem
    have hlen2 : ¬ (splitDots s).length < 2 := by omega
    simp [clean_reference, hdig, hne, hlen2, ht, hf, hn, hm, hd2, hv, hl]

/-- C7 (witness): the amended classification applied to concrete
candidates, one per clause. -/
theorem C7_witness :
    clean_reference "abc" = none
    ∧ clean_reference "true.x" = none
    ∧ clean_reference "1234" = none
    ∧ clean_reference "module.network.aws_subnet.public.id"
        = some "module.network.aws_subnet.public"
    ∧ clean_reference "data.aws_region.current.name"
        = some "data.aws_region.current"
    ∧ clean_reference "var.foo.bar" = none
    ∧ clean_reference "aws_vpc.main.id" = some "aws_vpc.main" :=
  ⟨(C7_amended "abc").1 (by decide),
   (C7_amended "true.x").2.1 (by decide),
   (C7_amended "1234").2.2.1 (by decide),
   (C7_amended "module.network.aws_subnet.public.id").2.2.2.1 (by decide),
   (C7_amended "data.aws_region.current.name").2.2.2.2.1 (by decide),
   (C7_amended "var.foo.bar").2.2.2.2.2.1 (by decide),
   (C7_amended "aws_vpc.main.id").2.2.2.2.2.2 (by decide) (by decide) (by decide)⟩

/-- C8: interpolation precedence in reference extraction — the
interpolated string and the bare string both extract exactly
`aws_vpc.main`, and whenever the interpolation rule yields any reference
for a string leaf, bare-form scanning is not consulted (the result is
exactly the interpolation result). -/
theorem C8_theorem :
    extract_references_from_string "$\x7baws_vpc.main.id\x7d"
      = ["aws_vpc.main"]
    ∧ extract_references_from_string "aws_vpc.main.id" = ["aws_vpc.main"]
    ∧ ∀ s : String, ¬ s.data.length < 3 → interpolationRefs s ≠ [] →
        extract_references_from_string s = interpolationRefs s := by
  refine ⟨by decide, by decide, ?_⟩
  intro s hlen hne
  unfold extract_references_from_string
  rw [if_neg hlen]
  simp only []
  have hfalse : (interpolationRefs s).isEmpty = false := by
    cases hx : interpolationRefs s with
    | nil => exact absurd hx hne
    | cons a l => rfl
  rw [hfalse]
  simp

/-- C8 (witness): the precedence clause applied to a concrete
interpolated leaf. -/
theorem C8_witness :
    extract_references_from_string "$\x7baws_subnet.public.id\x7d"
      = interpolationRefs "$\x7baws_subnet.public.id\x7d" :=
  C8_theorem.2.2 "$\x7baws_subnet.public.id\x7d" (by decide) (by decide)
